import Mathlib

/-!
Verification of the control-flow recovery core of the panopticon disassembler
(`src/core/src/function.rs`), as a shallow embedding in Lean.

Machine integers (`u64`, `usize`) are embedded as `Nat`; the only operations
performed on addresses in the source are comparisons and copies, so no
wrap-around modelling is needed.  External collaborators (the per-architecture
decoder, memory region, IL container, petgraph, uuid) are modelled from the
spec where noted.
-/

deriving instance DecidableEq for Except

namespace Panopticon

/-- The `Value` r-value variant (`Constant{value,size}`, `Variable{name,bits,subscript}`,
`Undefined`), mirroring the repository's `Value` enum used in jump maps and CFG nodes. -/
inductive Value where
  | Constant (value : Nat) (bits : Nat)
  | Variable (name : String) (bits : Nat) (subscript : Option Nat)
  | Undefined
deriving DecidableEq

/-- Modelled from the spec: `Guard` (the predicate on a CFG edge) lives outside
`src/`; claims only copy and compare guards, so it is modelled as an opaque tag. -/
structure Guard where
  tag : Nat
deriving DecidableEq

/-- Modelled from the spec: the decoder-side `Rvalue` enum
(`Constant{value,size}`, `Variable{name,size,subscript,offset}`, `Undefined`). -/
inductive Rvalue where
  | Constant (value : Nat) (size : Nat)
  | Variable (name : String) (size : Nat) (subscript : Option Nat) (offset : Nat)
  | Undefined
deriving DecidableEq

/-- Modelled from the spec: `Value::val(value, size)` constructs a constant.
The repository file only uses it through `?`; construction is modelled as
always succeeding (the error path is owned by code outside `src/`). -/
def Value.val (value : Nat) (bits : Nat) : Except String Value :=
  .ok (.Constant value bits)

/-- Modelled from the spec: `Value::var(name, bits, subscript)`; a zero-bit
variable is a `ValueConstructionFailure` per the spec's error list. -/
def Value.var (name : String) (bits : Nat) (subscript : Option Nat) : Except String Value :=
  if bits = 0 then .error "zero-bit variable" else .ok (.Variable name bits subscript)

/-- Modelled from the spec: `Value::undef()`. -/
def Value.undef : Value := .Undefined

/-- The `FunctionKind`: regular function or PLT stub. -/
inductive FunctionKind where
  | Regular
  | Stub (name : String) (pltAddress : Nat)
deriving DecidableEq

/-- The `Mnemonic`: half-open address range `area`, opcode, operands, format tokens
and a half-open statement range into the IL container.  Format tokens are
modelled as strings (their structure lives outside `src/`). -/
structure Mnemonic where
  areaStart : Nat
  areaEnd : Nat
  opcode : String
  operands : List Value
  formatString : List String
  stmtStart : Nat
  stmtEnd : Nat
deriving DecidableEq

instance : Inhabited Mnemonic :=
  ⟨{ areaStart := 0, areaEnd := 0, opcode := "", operands := [], formatString := [],
     stmtStart := 0, stmtEnd := 0 }⟩

/-- The `BasicBlock`: half-open mnemonic-index range, CFG node handle, covered
address range. -/
structure BasicBlock where
  mnemonicsStart : Nat
  mnemonicsEnd : Nat
  node : Nat
  areaStart : Nat
  areaEnd : Nat
deriving DecidableEq

instance : Inhabited BasicBlock :=
  ⟨{ mnemonicsStart := 0, mnemonicsEnd := 0, node := 0, areaStart := 0, areaEnd := 0 }⟩

/-- The `CfgNode`: either a basic-block reference or an unresolved jump target value. -/
inductive CfgNode where
  | BasicBlock (idx : Nat)
  | Value (v : Value)
deriving DecidableEq

/-- Modelled from the spec / petgraph: `Graph<CfgNode, Guard>` as a node arena
(indexed by position) plus an edge arena `(source, target, guard)` in insertion
order.  petgraph node/edge indices are arena positions. -/
structure Cfg where
  nodes : List CfgNode
  edges : List (Nat × Nat × Guard)
deriving DecidableEq

/-- Index of the first list element satisfying `p` (the `position` /
`find_edge` scans of the source, written out for direct induction). -/
def firstMatchIdx (p : α → Bool) : List α → Option Nat
  | [] => none
  | x :: xs => if p x then some 0 else (firstMatchIdx p xs).map (· + 1)

/-- The `Graph::add_node`: append, return the fresh index. -/
def Cfg.addNode (g : Cfg) (w : CfgNode) : Cfg × Nat :=
  ({ g with nodes := g.nodes ++ [w] }, g.nodes.length)

/-- The `Graph::update_edge(a, b, w)`: if an `a → b` edge exists update its weight
in place, otherwise append a new edge (petgraph `update_edge` semantics). -/
def Cfg.updateEdge (g : Cfg) (a b : Nat) (w : Guard) : Cfg :=
  match firstMatchIdx (fun e => e.1 == a && e.2.1 == b) g.edges with
  | some i => { g with edges := g.edges.set i (a, b, w) }
  | none => { g with edges := g.edges ++ [(a, b, w)] }

/-- petgraph `neighbors(n)`: outgoing targets, most recently added first
(adjacency lists are prepended to). -/
def Cfg.neighbors (g : Cfg) (n : Nat) : List Nat :=
  ((g.edges.filter (fun e => e.1 == n)).map (fun e => e.2.1)).reverse

/-- The jump maps `by_source` / `by_destination`: `HashMap<u64, Vec<(Value, Guard)>>`,
modelled as a total map with `[]` for absent keys (`get(..).unwrap_or(&Vec::new())`). -/
def JumpMap : Type := Nat → List (Value × Guard)

/-- The empty jump map. -/
def JumpMap.empty : JumpMap := fun _ => []

/-- The `map.entry(k).or_insert_with(Vec::new).push(v)`. -/
def JumpMap.push (m : JumpMap) (k : Nat) (v : Value × Guard) : JumpMap :=
  fun a => if a = k then m k ++ [v] else m a

/-- Error kinds of the core (spec section 7); the Rust code uses string errors,
distinguished here by constructor.  `outOfFuel` is an artefact of the embedding:
the Rust work-queue loop has no fuel, the embedding's recursion does. -/
inductive FnError where
  | noEntryBlock
  | nonContinuousBlock (bbIdx : Nat) (prevEnd : Nat) (nextStart : Nat)
  | statementPushFailure
  | valueConstructionFailure
  | transformError (msg : String)
  | outOfFuel
deriving DecidableEq

/-- The `is_basic_block_boundary` (function.rs 804-836): whether a basic-block
boundary falls between adjacent mnemonics `a` and `b`. -/
def is_basic_block_boundary (a b : Mnemonic) (entry : Nat)
    (by_source by_destination : JumpMap) : Bool :=
  -- if next mnemonics aren't adjacent
  let new_bb := a.areaEnd != b.areaStart
  -- or any following jumps aren't to adjacent mnemonics
  let new_bb := new_bb || (by_source a.areaStart).any (fun p =>
    match p.1 with
    | .Constant value _ => value != b.areaStart
    | _ => false)
  -- or any jumps pointing to the next that aren't from here
  let new_bb := new_bb || (by_destination b.areaStart).any (fun p =>
    match p.1 with
    | .Constant value _ => value != a.areaStart
    | _ => false)
  -- or the entry point does not point here
  new_bb || b.areaStart == entry

/-! ## Basic-block partition (Function::assemble, first loop) -/

/-- Helper for the `windows(2).position(..)` scan of `Function::assemble`
(function.rs 626-631): starting at pair `(j, j+1)`, return `p + 1` for the
first `p ≥ j` with a boundary between `p` and `p + 1`, or the vector length
when no pair from `j` on is a boundary.  Fuel-driven (`fuel ≥ len - j`). -/
def findCutGo (mns : List Mnemonic) (entry : Nat) (bs bd : JumpMap) :
    Nat → Nat → Nat
  | 0, _ => mns.length
  | fuel + 1, j =>
    if j + 1 < mns.length then
      if is_basic_block_boundary (mns.getD j default) (mns.getD (j + 1) default) entry bs bd
      then j + 1
      else findCutGo mns entry bs bd fuel (j + 1)
    else mns.length

/-- End index (exclusive) of the block starting at mnemonic index `idx`. -/
def findCut (mns : List Mnemonic) (entry : Nat) (bs bd : JumpMap) (idx : Nat) : Nat :=
  findCutGo mns entry bs bd mns.length idx

/-- The block-partition loop of `Function::assemble` (function.rs 624-650):
starting at `idx`, emit the block `[idx, findCut idx)` (whose area spans from
the first to the last of its mnemonics) and continue at the cut.  The Rust
`while` loop is fuel-driven here (`fuel ≥ len - idx` suffices).  `node` is the
placeholder `NodeIndex::new(0)`. -/
def partitionGo (mns : List Mnemonic) (entry : Nat) (bs bd : JumpMap) :
    Nat → Nat → List BasicBlock
  | 0, _ => []
  | fuel + 1, idx =>
    if idx < mns.length then
      let nxt := findCut mns entry bs bd idx
      { mnemonicsStart := idx, mnemonicsEnd := nxt, node := 0,
        areaStart := (mns.getD idx default).areaStart,
        areaEnd := (mns.getD (nxt - 1) default).areaEnd } ::
        partitionGo mns entry bs bd fuel nxt
    else []

/-- The complete basic-block partition of the mnemonic vector. -/
def partitionBlocks (mns : List Mnemonic) (entry : Nat) (bs bd : JumpMap) :
    List BasicBlock :=
  partitionGo mns entry bs bd (mns.length + 1) 0

/-- The node-assignment loop of `Function::assemble` (function.rs 655-657):
block `i` receives the freshly added CFG node `i` (`add_node` returns
consecutive indices on the fresh graph). -/
def setNodes (i : Nat) : List BasicBlock → List BasicBlock
  | [] => []
  | bb :: rest => { bb with node := i } :: setNodes (i + 1) rest

/-- The final statement-range rewrite of `Function::assemble` (function.rs
712-716): mnemonic `i` receives the recorded range `statement_ranges[i]`. -/
def applyRanges : List (Mnemonic × List Stmt) → List (Nat × Nat) → List Mnemonic
  | [], _ => []
  | p :: rest, [] => { p.1 with stmtStart := 0, stmtEnd := 0 } :: applyRanges rest []
  | p :: rest, r :: rs => { p.1 with stmtStart := r.1, stmtEnd := r.2 } :: applyRanges rest rs

/-- The block-range update loop of `Function::rewrite` (function.rs 555-557):
block `i` receives the `i`-th rebuilt mnemonic-index range. -/
def applyBlockRanges : List BasicBlock → List (Nat × Nat) → List BasicBlock
  | [], _ => []
  | bb :: rest, [] => bb :: applyBlockRanges rest []
  | bb :: rest, r :: rs =>
    { bb with mnemonicsStart := r.1, mnemonicsEnd := r.2 } :: applyBlockRanges rest rs

/-! ## petgraph depth-first postorder (DfsPostOrder) -/

/-- One-to-one embedding of petgraph's `DfsPostOrder` traversal collected into
a list: peek the stack top; on first sight mark discovered and push its
not-yet-discovered successors (most recent edge first); otherwise pop it and
emit it the first time it is popped.  `fuel` bounds the iterations of the
Rust `while` loop (the caller passes more than the loop can take). -/
def dfsPostorderGo (g : Cfg) :
    Nat → List Nat → List Nat → List Nat → List Nat → List Nat
  | 0, _, _, _, out => out.reverse
  | _ + 1, [], _, _, out => out.reverse
  | fuel + 1, nx :: rest, disc, fin, out =>
    if nx ∈ disc then
      if nx ∈ fin then dfsPostorderGo g fuel rest disc fin out
      else dfsPostorderGo g fuel rest disc (nx :: fin) (nx :: out)
    else
      let disc' := nx :: disc
      let pushes := (g.neighbors nx).filter (fun s => decide (s ∉ disc'))
      dfsPostorderGo g fuel (pushes.reverse ++ nx :: rest) disc' fin out

/-- petgraph `DfsPostOrder::new(g, start).iter(g)` collected into a list.
The internal fuel strictly dominates the loop's iteration count
(`≤ nodes + pushes + 1 ≤ nodes + edges + 2`). -/
def dfsPostorder (g : Cfg) (start : Nat) : List Nat :=
  dfsPostorderGo g (g.nodes.length + g.edges.length + 2) [start] [] [] []

/-! ## The Function aggregate -/

/-- The `Variable` struct (name, bits, subscript) yielded by `indirect_jumps`. -/
structure Variable where
  name : String
  bits : Nat
  subscript : Option Nat
deriving DecidableEq

/-- The `Constant` struct (value, bits) passed to `resolve_indirect_jump`. -/
structure Constant where
  value : Nat
  bits : Nat
deriving DecidableEq

/-- The `Function<IL>`: name, uuid, IL container, block vector, mnemonic vector,
control-flow graph, entry-block index, kind and aliases (function.rs 452-467).
The IL container is modelled from the spec (the `Bitcode`/`Language` types are
outside `src/`): an append-only statement store where each statement consumes
one storage unit, so `push` appends and `len` is the list length. -/
structure Function (Stmt : Type) where
  name : String
  uuid : Nat
  code : List Stmt
  basicBlocks : List BasicBlock
  mnemonics : List Mnemonic
  cflowGraph : Cfg
  entryPoint : Nat
  kind : FunctionKind
  aliases : List String
deriving DecidableEq

/-- The `iter_statements(range)` of the spec-modelled unit-width IL container:
the slice of stored statements at positions `[s, e)`. -/
def codeSlice (code : List Stmt) (s e : Nat) : List Stmt :=
  (code.take e).drop s

/-- Appending a sequence of statements to the IL container, one `push` at a
time; `pushOk` is the container's acceptance predicate (the spec's
*StatementPushFailure* is a rejected statement, propagated through `?`). -/
def pushAll (pushOk : Stmt → Bool) (code : List Stmt) : List Stmt → Except FnError (List Stmt)
  | [] => .ok code
  | s :: rest =>
    if pushOk s then pushAll pushOk (code ++ [s]) rest else .error .statementPushFailure

/-! ## Function::assemble (function.rs 615-722) -/

/-- One `(target, guard)` record of the per-block edge loop (function.rs
662-677): a constant target hits an existing block (binary search on block
start addresses) or becomes a fresh `UnresolvedTarget` node; a variable or
undefined target always becomes a fresh node. -/
def addJumpEdge (blocks : List BasicBlock) (srcNode : Nat) (g : Cfg)
    (vg : Value × Guard) : Cfg :=
  match vg.1 with
  | .Constant value _ =>
    match firstMatchIdx (fun bb => bb.areaStart == value) blocks with
    | some pos => g.updateEdge srcNode (blocks.getD pos default).node vg.2
    | none =>
      let p := g.addNode (.Value vg.1)
      p.1.updateEdge srcNode p.2 vg.2
  | v =>
    let p := g.addNode (.Value v)
    p.1.updateEdge srcNode p.2 vg.2

/-- The edge-construction loop of `Function::assemble` (function.rs 659-679):
for every block, look up `by_source` at its last mnemonic's start address and
add one edge per record. -/
def buildEdges (mns : List Mnemonic) (bs : JumpMap) (blocks : List BasicBlock)
    (g : Cfg) : Cfg :=
  blocks.foldl
    (fun g bb =>
      let last := mns.getD (bb.mnemonicsEnd - 1) default
      (bs last.areaStart).foldl (addJumpEdge blocks bb.node) g)
    g

/-- The by-mnemonic emission loop inside one visited block (function.rs
696-705), iterating `count` mnemonics from global index `pos`: push the
mnemonic's statements and record the new `[start, end)` range at its index. -/
def emitBlockGo (pushOk : Stmt → Bool) (mnemonics : List (Mnemonic × List Stmt)) :
    Nat → Nat → List Stmt × List (Nat × Nat) →
    Except FnError (List Stmt × List (Nat × Nat))
  | _, 0, acc => .ok acc
  | pos, count + 1, acc =>
    let stmts := (mnemonics.getD pos (default, [])).2
    let start := acc.1.length
    match pushAll pushOk acc.1 stmts with
    | .error e => .error e
    | .ok code' =>
      emitBlockGo pushOk mnemonics (pos + 1) count (code', acc.2.set pos (start, code'.length))

/-- IL emission for one visited block (function.rs 692-705): drain each of its
mnemonics' statement lists into the container in address order, recording each
new `[start, end)` range at the mnemonic's global index. -/
def emitBlock (pushOk : Stmt → Bool) (mnemonics : List (Mnemonic × List Stmt))
    (bb : BasicBlock) (acc : List Stmt × List (Nat × Nat)) :
    Except FnError (List Stmt × List (Nat × Nat)) :=
  emitBlockGo pushOk mnemonics bb.mnemonicsStart (bb.mnemonicsEnd - bb.mnemonicsStart) acc

/-- Phase D of `Function::assemble` (function.rs 686-708): walk the CFG in
depth-first postorder from the entry block's node and emit the IL of every
visited block node, ignoring `UnresolvedTarget` nodes.  Mnemonics of
unvisited blocks keep the range `0..0`. -/
def emitCodeGo (pushOk : Stmt → Bool) (g : Cfg) (blocks : List BasicBlock)
    (mnemonics : List (Mnemonic × List Stmt)) :
    List Nat → List Stmt × List (Nat × Nat) →
    Except FnError (List Stmt × List (Nat × Nat))
  | [], acc => .ok acc
  | n :: rest, acc =>
    match g.nodes.get? n with
    | some (.BasicBlock idx) =>
      match emitBlock pushOk mnemonics (blocks.getD idx default) acc with
      | .error e => .error e
      | .ok acc' => emitCodeGo pushOk g blocks mnemonics rest acc'
    | _ => emitCodeGo pushOk g blocks mnemonics rest acc

/-- The whole of Phase D, starting from the empty container and all-`0..0`
ranges. -/
def emitCode (pushOk : Stmt → Bool) (g : Cfg) (blocks : List BasicBlock)
    (mnemonics : List (Mnemonic × List Stmt)) (order : List Nat) :
    Except FnError (List Stmt × List (Nat × Nat)) :=
  emitCodeGo pushOk g blocks mnemonics order ([], List.replicate mnemonics.length (0, 0))

/-- The `Function::assemble` (function.rs 615-722): partition the mnemonics into
blocks, give block `i` CFG node `i`, build the jump edges, locate the entry
block (else *NoEntryBlock*), emit IL in DFS postorder from the entry node,
and replace the function's owned structures. -/
def Function.assembleF (f : Function Stmt) (entry : Nat)
    (mnemonics : List (Mnemonic × List Stmt)) (bs bd : JumpMap)
    (pushOk : Stmt → Bool) : Except FnError (Function Stmt) :=
  let mns := mnemonics.map Prod.fst
  let blocks := setNodes 0 (partitionBlocks mns entry bs bd)
  let cfg0 : Cfg := ⟨(List.range blocks.length).map .BasicBlock, []⟩
  let cfg := buildEdges mns bs blocks cfg0
  match firstMatchIdx (fun bb => bb.areaStart == entry) blocks with
  | none => .error .noEntryBlock
  | some entry_idx =>
    match emitCode pushOk cfg blocks mnemonics
        (dfsPostorder cfg (blocks.getD entry_idx default).node) with
    | .error e => .error e
    | .ok p =>
      .ok { f with
            code := p.1
            basicBlocks := blocks
            mnemonics := applyRanges mnemonics p.2
            cflowGraph := cfg
            entryPoint := entry_idx }

/-! ## Work-queue disassembly (function.rs 725-802) -/

/-- A decode result (`Match`): decoded mnemonics with their raw IL statements,
plus outgoing jumps `(origin, target, guard)`.  Modelled from the spec
(the `Architecture` trait lives outside `src/`); the region, configuration and
architecture are folded into the `decode` function itself. -/
structure DecodeResult (Stmt : Type) where
  mnemonics : List (Mnemonic × List Stmt)
  jumps : List (Nat × Rvalue × Guard)

/-- The mutable state threaded through `disassemble`: the address-sorted
mnemonic/statement vector and the two jump maps. -/
structure DisState (Stmt : Type) where
  mnemonics : List (Mnemonic × List Stmt)
  bySource : JumpMap
  byDestination : JumpMap

/-- The `binary_search_by_key(&addr, |x| x.area.start)` hit: some mnemonic starts
exactly at `addr`. -/
def bsFound (l : List (Mnemonic × List Stmt)) (addr : Nat) : Bool :=
  l.any (fun p => p.1.areaStart == addr)

/-- The `binary_search_by_key` miss position: the insertion rank of `addr` among
the (sorted) start addresses. -/
def bsInsertPos (l : List (Mnemonic × List Stmt)) (addr : Nat) : Nat :=
  l.countP (fun p => decide (p.1.areaStart < addr))

/-- The `for mne in match_st.mnemonics { mnemonics.insert(pos, ..) }` (function.rs
756-772): every produced mnemonic is inserted at the same fixed index, so the
group ends up in reverse production order at `pos`. -/
def insertGroupAt (pos : Nat) (grp l : List (Mnemonic × List Stmt)) :
    List (Mnemonic × List Stmt) :=
  l.take pos ++ grp.reverse ++ l.drop pos

/-- The `HashSet::insert` on the pending set (no duplicates). -/
def todoInsert (todo : List Nat) (v : Nat) : List Nat :=
  if v ∈ todo then todo else todo ++ [v]

/-- Map a `Value` construction failure into the core error kind. -/
def toVal (r : Except String Value) : Except FnError Value :=
  match r with
  | .ok v => .ok v
  | .error _ => .error .valueConstructionFailure

/-- Recording one produced jump (function.rs 776-791): a constant target feeds
both maps and the pending set; a variable target feeds only `by_source` (its
subscript is dropped); an undefined target records the undefined sentinel. -/
def recordJump (acc : DisState Stmt × List Nat) (j : Nat × Rvalue × Guard) :
    Except FnError (DisState Stmt × List Nat) :=
  match j.2.1 with
  | .Constant value size =>
    match toVal (Value.val value size), toVal (Value.val j.1 64) with
    | .error e, _ => .error e
    | _, .error e => .error e
    | .ok v1, .ok v2 =>
      .ok ({ acc.1 with
             bySource := acc.1.bySource.push j.1 (v1, j.2.2),
             byDestination := acc.1.byDestination.push value (v2, j.2.2) },
           todoInsert acc.2 value)
  | .Variable name size _ _ =>
    match toVal (Value.var name size none) with
    | .error e => .error e
    | .ok v1 => .ok ({ acc.1 with bySource := acc.1.bySource.push j.1 (v1, j.2.2) }, acc.2)
  | .Undefined =>
    .ok ({ acc.1 with bySource := acc.1.bySource.push j.1 (Value.undef, j.2.2) }, acc.2)

/-- The `for (origin, tgt, gu) in match_st.jumps` loop (function.rs 776-791),
jump by jump. -/
def recordJumps : List (Nat × Rvalue × Guard) → DisState Stmt × List Nat →
    Except FnError (DisState Stmt × List Nat)
  | [], acc => .ok acc
  | j :: rest, acc =>
    match recordJump acc j with
    | .error e => .error e
    | .ok acc' => recordJumps rest acc'

/-- The work-queue loop of `disassemble` (function.rs 732-799).  The `HashSet`
pop order is unspecified in Rust; the embedding pops the list head.  If some
mnemonic already starts at the popped address the address is skipped (the
mid-instruction diagnostic at function.rs 742-744 compares that mnemonic's
start with the popped address, which the binary-search hit makes equal).
Otherwise the decoder runs at the address: failures are logged and skipped,
successes splice the produced mnemonics in at the insertion position and
record the produced jumps.  `fuel` bounds the iterations of the Rust `while`
loop, which has no intrinsic bound. -/
def disassembleGo (decode : Nat → Except String (DecodeResult Stmt)) :
    Nat → List Nat → DisState Stmt → Except FnError (DisState Stmt)
  | 0, todo, st => if todo.isEmpty then .ok st else .error .outOfFuel
  | _ + 1, [], st => .ok st
  | fuel + 1, addr :: todo, st =>
    if bsFound st.mnemonics addr then
      disassembleGo decode fuel todo st
    else
      let pos := bsInsertPos st.mnemonics addr
      match decode addr with
      | .error _ => disassembleGo decode fuel todo st
      | .ok res =>
        let st1 := { st with mnemonics := insertGroupAt pos res.mnemonics st.mnemonics }
        match recordJumps res.jumps (st1, todo) with
        | .error e => .error e
        | .ok acc => disassembleGo decode fuel acc.2 acc.1

/-- The `disassemble` with an initial seed set. -/
def disassembleFrom (decode : Nat → Except String (DecodeResult Stmt)) (fuel : Nat)
    (starts : List Nat) (st : DisState Stmt) : Except FnError (DisState Stmt) :=
  disassembleGo decode fuel starts st

/-! ## Construction, queries and mutators -/

/-- Hexadecimal rendering used by the default name `func_{:x}`. -/
def hexString (n : Nat) : String := String.mk (Nat.toDigits 16 n)

/-- The fresh `Function` record built at the top of `Function::new`
(function.rs 487-497); the random v4 UUID is modelled as `0`. -/
def Function.initial (Stmt : Type) (start : Nat) (name : Option String) : Function Stmt :=
  { name := name.getD ("func_" ++ hexString start)
    uuid := 0
    code := []
    basicBlocks := []
    mnemonics := []
    cflowGraph := ⟨[], []⟩
    entryPoint := 0
    kind := .Regular
    aliases := [] }

/-- The constructor `Function::new` (function.rs 482-503): disassemble from the entry address,
then assemble. -/
def Function.new (decode : Nat → Except String (DecodeResult Stmt)) (start : Nat)
    (name : Option String) (pushOk : Stmt → Bool) (fuel : Nat) :
    Except FnError (Function Stmt) :=
  match disassembleFrom decode fuel [start] ⟨[], JumpMap.empty, JumpMap.empty⟩ with
  | .error e => .error e
  | .ok st =>
    (Function.initial Stmt start name).assembleF start st.mnemonics st.bySource
      st.byDestination pushOk

/-- The `Function::with_uuid` (function.rs 475-479): `new`, then overwrite the UUID. -/
def Function.with_uuid (decode : Nat → Except String (DecodeResult Stmt)) (start : Nat)
    (uuid : Nat) (name : Option String) (pushOk : Stmt → Bool) (fuel : Nat) :
    Except FnError (Function Stmt) :=
  (Function.new decode start name pushOk fuel).map (fun f => { f with uuid := uuid })

/-- The `Function::contains` (function.rs 947-955), translated verbatim: the loop
returns `true` on the first block with `bb.area.start >= address && address <
bb.area.end`. -/
def Function.contains (f : Function Stmt) (address : Nat) : Bool :=
  f.basicBlocks.any (fun bb => bb.areaStart ≥ address && address < bb.areaEnd)

/-- The `Function::entry_address` (function.rs 988-991). -/
def Function.entry_address (f : Function Stmt) : Nat :=
  (f.basicBlocks.getD f.entryPoint default).areaStart

/-- The `statements(..)` over the full range (`RangeFull` gives `0..code.len()`),
which iterates the whole IL container in storage order. -/
def Function.statementsFull (f : Function Stmt) : List Stmt :=
  codeSlice f.code 0 f.code.length

/-- The `Function::indirect_jumps` (function.rs 1027-1032 with the iterator at
423-443): every `CfgNode::Value(Value::Variable(v))` in node-index order. -/
def Function.indirect_jumps (f : Function Stmt) : List Variable :=
  f.cflowGraph.nodes.filterMap
    (fun n =>
      match n with
      | .Value (.Variable name bits sub) => some ⟨name, bits, sub⟩
      | _ => none)

/-- The `Function::resolve_indirect_jump` (function.rs 1034-1047): find the first
CFG node whose payload equals `Value::Variable(var)`, overwrite it with
`Value::Constant(val)` and return `true`; otherwise return `false`.  The
returned function is the state after the call. -/
def Function.resolve_indirect_jump (f : Function Stmt) (var : Variable) (val : Constant) :
    Function Stmt × Bool :=
  let target : CfgNode := .Value (.Variable var.name var.bits var.subscript)
  match firstMatchIdx (fun n => n == target) f.cflowGraph.nodes with
  | some i =>
    ({ f with cflowGraph :=
        { f.cflowGraph with
          nodes := f.cflowGraph.nodes.set i (.Value (.Constant val.value val.bits)) } },
     true)
  | none => (f, false)

/-! ## Function::rewrite (function.rs 506-563) -/

/-- Materialization of the editable view (function.rs 510-521): per block, its
mnemonics paired with their statements read back from the IL container. -/
def Function.materializeBlocks (f : Function Stmt) : List (List (Mnemonic × List Stmt)) :=
  f.basicBlocks.map
    (fun bb =>
      ((f.mnemonics.take bb.mnemonicsEnd).drop bb.mnemonicsStart).map
        (fun mne => (mne, codeSlice f.code mne.stmtStart mne.stmtEnd)))

/-- The inner rebuild loop of `rewrite` (function.rs 534-550) for one block:
check address continuity against the previous mnemonic's end (else
*NonContinuousBlock*), push the statements, record the new statement range. -/
def rebuildBlockGo (pushOk : Stmt → Bool) (bbIdx : Nat) :
    List (Mnemonic × List Stmt) → Option Nat → List Mnemonic → List Stmt →
    Except FnError (List Mnemonic × List Stmt)
  | [], _, mns, code => .ok (mns, code)
  | (mne, stmts) :: rest, prevAddr, mns, code =>
    let cont : Except FnError (List Mnemonic × List Stmt) :=
      match pushAll pushOk code stmts with
      | .error e => .error e
      | .ok code' =>
        rebuildBlockGo pushOk bbIdx rest (some mne.areaEnd)
          (mns ++ [{ mne with stmtStart := code.length, stmtEnd := code'.length }]) code'
    match prevAddr with
    | some s =>
      if s ≠ mne.areaStart then .error (.nonContinuousBlock bbIdx s mne.areaStart)
      else cont
    | none => cont

/-- The outer rebuild loop of `rewrite` (function.rs 530-553): process the
blocks in order, collecting the new mnemonic vector, IL container and
per-block mnemonic-index ranges. -/
def rebuildBlocksGo (pushOk : Stmt → Bool) :
    List (List (Mnemonic × List Stmt)) → Nat → List Mnemonic → List Stmt →
    List (Nat × Nat) → Except FnError (List Mnemonic × List Stmt × List (Nat × Nat))
  | [], _, mns, code, ranges => .ok (mns, code, ranges)
  | mnes :: rest, bbIdx, mns, code, ranges =>
    match rebuildBlockGo pushOk bbIdx mnes none mns code with
    | .error e => .error e
    | .ok p =>
      rebuildBlocksGo pushOk rest (bbIdx + 1) p.1 p.2 (ranges ++ [(mns.length, p.1.length)])

/-- The `Function::rewrite` (function.rs 506-563): materialize the editable view,
run the caller's transformer, validate and rebuild, and only then replace the
mnemonic vector, block ranges and IL container.  The result pairs the state
after the call with the outcome: every error path returns before any field of
the function is assigned.  (The Rust transformer mutates a slice in place and
therefore cannot change the number of blocks.) -/
def Function.rewrite (f : Function Stmt)
    (transform : List (List (Mnemonic × List Stmt)) →
      Except String (List (List (Mnemonic × List Stmt))))
    (pushOk : Stmt → Bool) : Function Stmt × Except FnError Unit :=
  let blocks := f.materializeBlocks
  match transform blocks with
  | .error e => (f, .error (.transformError e))
  | .ok blocks' =>
    match rebuildBlocksGo pushOk blocks' 0 [] [] [] with
    | .error e => (f, .error e)
    | .ok (mns, code, ranges) =>
      ({ f with
          basicBlocks := applyBlockRanges f.basicBlocks ranges
          mnemonics := mns
          code := code },
       .ok ())

/-! ## Function::extend (function.rs 567-610) -/

/-- The jump-map reconstruction of `extend` (function.rs 578-605), one CFG
edge at a time: key `by_source` on the source block's last mnemonic's start;
a block target contributes its first mnemonic's start as a 64-bit constant,
a value target contributes the stored value; constant targets also feed
`by_destination` and the new seed list.  (A value node as an edge *source* is
`unreachable!` in Rust; the embedding returns address 0 there.) -/
def extendEdgeStep (f : Function Stmt) (acc : JumpMap × JumpMap × List Nat)
    (e : Nat × Nat × Guard) : Except FnError (JumpMap × JumpMap × List Nat) := do
  let src : Nat :=
    match f.cflowGraph.nodes.get? e.1 with
    | some (.BasicBlock bbIdx) =>
      let bb := f.basicBlocks.getD bbIdx default
      (f.mnemonics.getD (bb.mnemonicsEnd - 1) default).areaStart
    | _ => 0
  let dst : Value ←
    match f.cflowGraph.nodes.get? e.2.1 with
    | some (.BasicBlock bbIdx) =>
      let bb := f.basicBlocks.getD bbIdx default
      toVal (Value.val (f.mnemonics.getD bb.mnemonicsStart default).areaStart 64)
    | some (.Value val) => .ok val
    | none => .ok Value.undef
  let bySource := acc.1.push src (dst, e.2.2)
  match dst with
  | .Constant value _ => do
    let v2 ← toVal (Value.val src 64)
    .ok (bySource, acc.2.1.push value (v2, e.2.2), acc.2.2 ++ [value])
  | _ => .ok (bySource, acc.2.1, acc.2.2)

/-- The `Function::extend` (function.rs 567-610): pair the current mnemonics with
their statements, rebuild both jump maps and the seed set from the CFG edges,
re-run the work-queue disassembler from the seeds, and re-assemble at the
original entry address. -/
def Function.extend (f : Function Stmt) (decode : Nat → Except String (DecodeResult Stmt))
    (pushOk : Stmt → Bool) (fuel : Nat) : Except FnError (Function Stmt) :=
  let mnemonics := f.mnemonics.map (fun mne => (mne, codeSlice f.code mne.stmtStart mne.stmtEnd))
  match f.cflowGraph.edges.foldlM (extendEdgeStep f) (JumpMap.empty, JumpMap.empty, []) with
  | .error e => .error e
  | .ok maps =>
    match disassembleFrom decode fuel maps.2.2 ⟨mnemonics, maps.1, maps.2.1⟩ with
    | .error e => .error e
    | .ok st => f.assembleF f.entry_address st.mnemonics st.bySource st.byDestination pushOk

/-! ## Spec-side definitions (phrased from the specification's words, for
comparison against the source-translated definitions above) -/

/-- The boundary condition as the spec states it: an address gap, an outgoing
constant jump that is not exactly `b.start`, an incoming constant jump that is
not exactly `a.start`, or `b.start` equals the function entry address. -/
def specBoundary (a b : Mnemonic) (entry : Nat) (bs bd : JumpMap) : Prop :=
  a.areaEnd ≠ b.areaStart
  ∨ (∃ v bits g, (Value.Constant v bits, g) ∈ bs a.areaStart ∧ v ≠ b.areaStart)
  ∨ (∃ v bits g, (Value.Constant v bits, g) ∈ bd b.areaStart ∧ v ≠ a.areaStart)
  ∨ b.areaStart = entry

/-- The spec's reading of `contains(addr)`: some block's half-open address
range covers `addr`. -/
def coversAddress (f : Function Stmt) (addr : Nat) : Bool :=
  f.basicBlocks.any (fun bb => bb.areaStart ≤ addr && addr < bb.areaEnd)

/-- The block indices in reverse-postorder of the CFG from the entry block's
node (postorder of the DFS, block nodes only, reversed).  The spec's claim
"the block vector is in reverse-postorder" says the vector order
`0, 1, …, n-1` equals this list. -/
def revPostorderIdx (f : Function Stmt) : List Nat :=
  ((dfsPostorder f.cflowGraph (f.basicBlocks.getD f.entryPoint default).node).filterMap
    (fun n =>
      match f.cflowGraph.nodes.get? n with
      | some (.BasicBlock i) => some i
      | _ => none)).reverse

/-- Two mnemonics' half-open address ranges are disjoint. -/
@[reducible] def disjointAreas (m1 m2 : Mnemonic) : Prop :=
  m1.areaEnd ≤ m2.areaStart ∨ m2.areaEnd ≤ m1.areaStart

/-- The per-block statement streams of a function, concatenated in block-vector
order then mnemonic order (the layout `rewrite` rebuilds). -/
def blockOrderStatements (f : Function Stmt) : List Stmt :=
  (f.materializeBlocks.map (fun mnes => (mnes.map Prod.snd).flatten)).flatten

/-- Address-continuity violation scan of a block's mnemonic list, carrying the
previous mnemonic's end (the spec's "adjacent mnemonics within a block must
satisfy `prev.end == next.start`", negated). -/
def hasGapFrom (s : Nat) : List Mnemonic → Bool
  | [] => false
  | m :: rest => (s != m.areaStart) || hasGapFrom m.areaEnd rest

/-- Whether some adjacent pair inside the block breaks address continuity. -/
def blockGap : List Mnemonic → Bool
  | [] => false
  | m :: rest => hasGapFrom m.areaEnd rest

/-- Decoder discipline of the repository's own test architectures: a
successful decode at `addr` yields no mnemonic (unrecognized instruction) or
exactly one mnemonic starting at `addr`. -/
def SingleDecode (decode : Nat → Except String (DecodeResult Stmt)) : Prop :=
  ∀ addr res, decode addr = .ok res →
    res.mnemonics = [] ∨ ∃ m s, res.mnemonics = [(m, s)] ∧ m.areaStart = addr

/-- The start addresses of a mnemonic/statement vector. -/
def mneStarts (l : List (Mnemonic × List Stmt)) : List Nat :=
  l.map (fun p => p.1.areaStart)

/-- The boundary predicate applied to the adjacent mnemonic pair `(i, i+1)`
of the vector. -/
def boundaryAt (mns : List Mnemonic) (entry : Nat) (bs bd : JumpMap) (i : Nat) : Bool :=
  is_basic_block_boundary (mns.getD i default) (mns.getD (i + 1) default) entry bs bd

/-- The blocks' mnemonic-index ranges tile `[i, len)` from left to right:
each block starts where the previous ended, is non-empty, and the last ends
at `len`. -/
def tilesFrom (len : Nat) : Nat → List BasicBlock → Prop
  | i, [] => len ≤ i
  | i, bb :: rest =>
    bb.mnemonicsStart = i ∧ i < bb.mnemonicsEnd ∧ bb.mnemonicsEnd ≤ len ∧
      tilesFrom len bb.mnemonicsEnd rest

/-! ## Concrete instances (used by counterexamples and witnesses) -/

/-- A fixed guard for concrete runs. -/
def g0 : Guard := ⟨0⟩

/-- Concrete mnemonic constructor for test decoders. -/
def mkMne (s e : Nat) (op : String) : Mnemonic :=
  { areaStart := s, areaEnd := e, opcode := op, operands := [], formatString := [],
    stmtStart := 0, stmtEnd := 0 }

/-- The always-accepting IL container predicate (the repository's `Bitcode`
accepts the statements of every test). -/
def okPush : Nat → Bool := fun _ => true

/-- The `branch` test decoder (function.rs 1205-1283), with distinguishable
statements: address 0 branches to 1 and 2, address 1 jumps to 3, address 2
jumps to 1. -/
def decBranch : Nat → Except String (DecodeResult Nat)
  | 0 => .ok ⟨[(mkMne 0 1 "test0", [10])], [(0, .Constant 1 32, g0), (0, .Constant 2 32, g0)]⟩
  | 1 => .ok ⟨[(mkMne 1 2 "test1", [20])], [(1, .Constant 3 32, g0)]⟩
  | 2 => .ok ⟨[(mkMne 2 3 "test2", [30])], [(2, .Constant 1 32, g0)]⟩
  | _ => .error "no match"

/-- The function built from `decBranch` at entry 0. -/
def fBranch : Function Nat :=
  match Function.new decBranch 0 none okPush 20 with
  | .ok f => f
  | .error _ => Function.initial Nat 0 none

/-- The disassembler state produced for `decBranch` from seed 0. -/
def stBranch : DisState Nat :=
  match disassembleFrom decBranch 20 [0] ⟨[], JumpMap.empty, JumpMap.empty⟩ with
  | .ok st => st
  | .error _ => ⟨[], JumpMap.empty, JumpMap.empty⟩

/-- The `issue_51` loop decoder (0 → 1 → 2 → 0), entered at address 1, which
splits the loop into two blocks with the entry block second in address order. -/
def decSplit : Nat → Except String (DecodeResult Nat)
  | 0 => .ok ⟨[(mkMne 0 1 "t0", [])], [(0, .Constant 1 32, g0)]⟩
  | 1 => .ok ⟨[(mkMne 1 2 "t1", [])], [(1, .Constant 2 32, g0)]⟩
  | 2 => .ok ⟨[(mkMne 2 3 "t2", [])], [(2, .Constant 0 32, g0)]⟩
  | _ => .error "no match"

/-- The function built from `decSplit` at entry 1. -/
def fSplit : Function Nat :=
  match Function.new decSplit 1 none okPush 20 with
  | .ok f => f
  | .error _ => Function.initial Nat 0 none

/-- An `issue_232`-style decoder: address 0 decodes to a two-byte mnemonic
`[0,2)` jumping to 1, address 1 to a one-byte mnemonic `[1,2)` jumping to 2,
address 2 to `[2,3)`. -/
def decOverlap : Nat → Except String (DecodeResult Nat)
  | 0 => .ok ⟨[(mkMne 0 2 "t01", [])], [(0, .Constant 1 32, g0)]⟩
  | 1 => .ok ⟨[(mkMne 1 2 "t1", [])], [(1, .Constant 2 32, g0)]⟩
  | 2 => .ok ⟨[(mkMne 2 3 "t2", [])], []⟩
  | _ => .error "no match"

/-- The function built from `decOverlap` at entry 0; its mnemonics `[0,2)` and
`[1,2)` overlap. -/
def fOverlap : Function Nat :=
  match Function.new decOverlap 0 none okPush 20 with
  | .ok f => f
  | .error _ => Function.initial Nat 0 none

/-- A decoder whose function occupies `[2,4)`: address 2 jumps to 3. -/
def decHigh : Nat → Except String (DecodeResult Nat)
  | 2 => .ok ⟨[(mkMne 2 3 "i2", [])], [(2, .Constant 3 32, g0)]⟩
  | 3 => .ok ⟨[(mkMne 3 4 "i3", [])], []⟩
  | _ => .error "no match"

/-- The function built from `decHigh` at entry 2: a single block `[2,4)`. -/
def fHigh : Function Nat :=
  match Function.new decHigh 2 none okPush 20 with
  | .ok f => f
  | .error _ => Function.initial Nat 0 none

/-- A decoder used for the mid-instruction pop: address 1 decodes to `[1,2)`
with no jumps. -/
def decMid : Nat → Except String (DecodeResult Nat)
  | 1 => .ok ⟨[(mkMne 1 2 "inner", [])], []⟩
  | _ => .error "no match"

/-- A disassembler state that already holds the two-byte mnemonic `[0,2)`. -/
def stMid : DisState Nat := ⟨[(mkMne 0 2 "wide", [])], JumpMap.empty, JumpMap.empty⟩

/-- The state after one work-queue step of `decMid` at the popped address 1
(which lies strictly inside the `[0,2)` mnemonic of `stMid`). -/
def stMidStepped : DisState Nat :=
  match disassembleGo decMid 1 [1] stMid with
  | .ok st => st
  | .error _ => stMid

/-- The symbolic jump target used by the duplicate-unresolved-node instance. -/
def vA : Value := .Variable "A" 1 none

/-- A `by_source` map in which the blocks ending at addresses 0 and 1 both
jump to the same symbolic variable `A`. -/
def bsrcC10 : JumpMap :=
  fun a => if a = 0 then [(vA, g0)] else if a = 1 then [(vA, g0)] else []

/-- A function assembled from two single-mnemonic blocks `[0,1)` and `[1,2)`
(entry 1 forces the split), each jumping to the variable `A`. -/
def fC10 : Function Nat :=
  match (Function.initial Nat 1 none).assembleF 1
      [(mkMne 0 1 "m0", []), (mkMne 1 2 "m1", [])] bsrcC10 JumpMap.empty okPush with
  | .ok f => f
  | .error _ => Function.initial Nat 0 none

/-! ## Utility lemmas -/

theorem firstMatchIdx_none_iff (p : α → Bool) (l : List α) :
    firstMatchIdx p l = none ↔ ∀ x ∈ l, p x = false := by
  induction l with
  | nil => simp [firstMatchIdx]
  | cons x xs ih =>
    cases hp : p x with
    | true =>
      simp only [firstMatchIdx, hp, if_true]
      constructor
      · intro h; cases h
      · intro hall; exact absurd (hall x (by simp)) (by simp [hp])
    | false =>
      simp only [firstMatchIdx, hp, Bool.false_eq_true, if_false, Option.map_eq_none']
      rw [ih]
      constructor
      · intro hall y hy
        rcases List.mem_cons.1 hy with rfl | hy
        · exact hp
        · exact hall y hy
      · intro hall y hy
        exact hall y (List.mem_cons_of_mem _ hy)

theorem firstMatchIdx_some (p : α → Bool) (l : List α) (i : Nat)
    (h : firstMatchIdx p l = some i) : ∃ x, l[i]? = some x ∧ p x = true := by
  induction l generalizing i with
  | nil => simp [firstMatchIdx] at h
  | cons x xs ih =>
    cases hp : p x with
    | true =>
      simp only [firstMatchIdx, hp, if_true, Option.some.injEq] at h
      exact ⟨x, by simp [← h], hp⟩
    | false =>
      simp only [firstMatchIdx, hp, Bool.false_eq_true, if_false, Option.map_eq_some'] at h
      obtain ⟨j, hj, rfl⟩ := h
      obtain ⟨y, hy, hpy⟩ := ih j hj
      exact ⟨y, by simpa using hy, hpy⟩

theorem firstMatchIdx_isSome_iff (p : α → Bool) (l : List α) :
    (firstMatchIdx p l).isSome ↔ ∃ x ∈ l, p x = true := by
  constructor
  · intro h
    obtain ⟨i, hi⟩ := Option.isSome_iff_exists.1 h
    obtain ⟨x, hx, hpx⟩ := firstMatchIdx_some p l i hi
    exact ⟨x, List.getElem?_mem hx, hpx⟩
  · intro ⟨x, hx, hpx⟩
    cases hi : firstMatchIdx p l with
    | some i => simp
    | none => exact absurd hpx (by simp [(firstMatchIdx_none_iff p l).1 hi x hx])

/-! ## Partition lemmas -/

theorem findCutGo_bounds (mns : List Mnemonic) (entry : Nat) (bs bd : JumpMap) :
    ∀ fuel j, j < mns.length →
      j < findCutGo mns entry bs bd fuel j ∧ findCutGo mns entry bs bd fuel j ≤ mns.length := by
  intro fuel
  induction fuel with
  | zero => intro j hj; simp only [findCutGo]; omega
  | succ fuel ih =>
    intro j hj
    by_cases h1 : j + 1 < mns.length
    · cases h2 : is_basic_block_boundary (mns.getD j default) (mns.getD (j + 1) default)
          entry bs bd with
      | true => simp only [findCutGo, h1, if_true, h2]; omega
      | false =>
        have := ih (j + 1) h1
        simp only [findCutGo, h1, if_true, h2, Bool.false_eq_true, if_false]
        omega
    · simp only [findCutGo, h1, if_false]; omega

theorem findCutGo_minimal (mns : List Mnemonic) (entry : Nat) (bs bd : JumpMap) :
    ∀ fuel j, mns.length - j ≤ fuel →
      ∀ k, j ≤ k → k + 1 < findCutGo mns entry bs bd fuel j →
        boundaryAt mns entry bs bd k = false := by
  intro fuel
  induction fuel with
  | zero =>
    intro j hfuel k hk hlt
    simp only [findCutGo] at hlt
    exact absurd hlt (by omega)
  | succ fuel ih =>
    intro j hfuel k hk hlt
    by_cases h1 : j + 1 < mns.length
    · cases h2 : is_basic_block_boundary (mns.getD j default) (mns.getD (j + 1) default)
          entry bs bd with
      | true =>
        simp only [findCutGo, h1, if_true, h2] at hlt
        exact absurd hlt (by omega)
      | false =>
        simp only [findCutGo, h1, if_true, h2, Bool.false_eq_true, if_false] at hlt
        rcases Nat.eq_or_lt_of_le hk with rfl | hk'
        · simpa [boundaryAt] using h2
        · exact ih (j + 1) (by omega) k hk' hlt
    · simp only [findCutGo, h1, if_false] at hlt
      exact absurd hlt (by omega)

theorem findCutGo_cut (mns : List Mnemonic) (entry : Nat) (bs bd : JumpMap) :
    ∀ fuel j, mns.length - j ≤ fuel →
      findCutGo mns entry bs bd fuel j < mns.length →
      boundaryAt mns entry bs bd (findCutGo mns entry bs bd fuel j - 1) = true := by
  intro fuel
  induction fuel with
  | zero =>
    intro j hfuel hlt
    simp only [findCutGo] at hlt ⊢
    exact absurd hlt (by omega)
  | succ fuel ih =>
    intro j hfuel hlt
    by_cases h1 : j + 1 < mns.length
    · cases h2 : is_basic_block_boundary (mns.getD j default) (mns.getD (j + 1) default)
          entry bs bd with
      | true =>
        simp only [findCutGo, h1, if_true, h2]
        simpa [boundaryAt] using h2
      | false =>
        simp only [findCutGo, h1, if_true, h2, Bool.false_eq_true, if_false] at hlt ⊢
        exact ih (j + 1) (by omega) hlt
    · simp only [findCutGo, h1, if_false] at hlt
      exact absurd hlt (by omega)

theorem findCut_bounds (mns : List Mnemonic) (entry : Nat) (bs bd : JumpMap) (idx : Nat)
    (h : idx < mns.length) :
    idx < findCut mns entry bs bd idx ∧ findCut mns entry bs bd idx ≤ mns.length :=
  findCutGo_bounds mns entry bs bd mns.length idx h

theorem findCut_minimal (mns : List Mnemonic) (entry : Nat) (bs bd : JumpMap) (idx k : Nat)
    (hk : idx ≤ k) (hlt : k + 1 < findCut mns entry bs bd idx) :
    boundaryAt mns entry bs bd k = false :=
  findCutGo_minimal mns entry bs bd mns.length idx (by omega) k hk hlt

theorem findCut_cut (mns : List Mnemonic) (entry : Nat) (bs bd : JumpMap) (idx : Nat)
    (hlt : findCut mns entry bs bd idx < mns.length) :
    boundaryAt mns entry bs bd (findCut mns entry bs bd idx - 1) = true :=
  findCutGo_cut mns entry bs bd mns.length idx (by omega) hlt

theorem partitionGo_tiles (mns : List Mnemonic) (entry : Nat) (bs bd : JumpMap) :
    ∀ fuel idx, mns.length - idx ≤ fuel →
      tilesFrom mns.length idx (partitionGo mns entry bs bd fuel idx) := by
  intro fuel
  induction fuel with
  | zero =>
    intro idx h
    simp only [partitionGo]
    show mns.length ≤ idx
    omega
  | succ fuel ih =>
    intro idx h
    by_cases hidx : idx < mns.length
    · have hb := findCut_bounds mns entry bs bd idx hidx
      simp only [partitionGo, hidx, if_true]
      exact ⟨rfl, hb.1, hb.2, ih (findCut mns entry bs bd idx) (by omega)⟩
    · simp only [partitionGo, hidx, if_false]
      show mns.length ≤ idx
      omega

theorem partitionGo_areas (mns : List Mnemonic) (entry : Nat) (bs bd : JumpMap) :
    ∀ fuel idx, ∀ bb ∈ partitionGo mns entry bs bd fuel idx,
      bb.areaStart = (mns.getD bb.mnemonicsStart default).areaStart ∧
      bb.areaEnd = (mns.getD (bb.mnemonicsEnd - 1) default).areaEnd := by
  intro fuel
  induction fuel with
  | zero => intro idx bb hbb; simp [partitionGo] at hbb
  | succ fuel ih =>
    intro idx bb hbb
    by_cases hidx : idx < mns.length
    · simp only [partitionGo, hidx, if_true, List.mem_cons] at hbb
      rcases hbb with rfl | hbb
      · exact ⟨rfl, rfl⟩
      · exact ih _ bb hbb
    · simp [partitionGo, hidx] at hbb

theorem partitionGo_start_le (mns : List Mnemonic) (entry : Nat) (bs bd : JumpMap) :
    ∀ fuel idx, ∀ bb ∈ partitionGo mns entry bs bd fuel idx, idx ≤ bb.mnemonicsStart := by
  intro fuel
  induction fuel with
  | zero => intro idx bb hbb; simp [partitionGo] at hbb
  | succ fuel ih =>
    intro idx bb hbb
    by_cases hidx : idx < mns.length
    · simp only [partitionGo, hidx, if_true, List.mem_cons] at hbb
      rcases hbb with rfl | hbb
      · exact Nat.le_refl _
      · have h1 := (findCut_bounds mns entry bs bd idx hidx).1
        have h2 := ih _ bb hbb
        omega
    · simp [partitionGo, hidx] at hbb

theorem partitionGo_head (mns : List Mnemonic) (entry : Nat) (bs bd : JumpMap)
    (fuel idx : Nat) (hfuel : mns.length - idx ≤ fuel) (hidx : idx < mns.length) :
    ∃ bb ∈ partitionGo mns entry bs bd fuel idx, bb.mnemonicsStart = idx := by
  cases fuel with
  | zero => exact absurd hfuel (by omega)
  | succ fuel =>
    simp only [partitionGo, hidx, if_true]
    exact ⟨_, List.mem_cons_self _ _, rfl⟩

theorem partitionGo_cutStart (mns : List Mnemonic) (entry : Nat) (bs bd : JumpMap) :
    ∀ fuel idx j, mns.length - idx ≤ fuel → idx < j → j < mns.length →
      boundaryAt mns entry bs bd (j - 1) = true →
      ∃ bb ∈ partitionGo mns entry bs bd fuel idx, bb.mnemonicsStart = j := by
  intro fuel
  induction fuel with
  | zero =>
    intro idx j hfuel hij hj _
    exact absurd hfuel (by omega)
  | succ fuel ih =>
    intro idx j hfuel hij hj hB
    have hidx : idx < mns.length := by omega
    have hcb := findCut_bounds mns entry bs bd idx hidx
    rcases Nat.lt_trichotomy j (findCut mns entry bs bd idx) with hlt | heq | hgt
    · have hfalse := findCut_minimal mns entry bs bd idx (j - 1) (by omega) (by omega)
      rw [hB] at hfalse
      cases hfalse
    · obtain ⟨bb, hmem, hstart⟩ :=
        partitionGo_head mns entry bs bd fuel (findCut mns entry bs bd idx) (by omega)
          (by omega)
      refine ⟨bb, ?_, by omega⟩
      simp only [partitionGo, hidx, if_true, List.mem_cons]
      exact Or.inr hmem
    · obtain ⟨bb, hmem, hstart⟩ := ih (findCut mns entry bs bd idx) j (by omega) hgt hj hB
      refine ⟨bb, ?_, hstart⟩
      simp only [partitionGo, hidx, if_true, List.mem_cons]
      exact Or.inr hmem

theorem partitionGo_adj (mns : List Mnemonic) (entry : Nat) (bs bd : JumpMap) :
    ∀ fuel idx i, mns.length - idx ≤ fuel → idx ≤ i → i + 1 < mns.length →
      ((∃ bb ∈ partitionGo mns entry bs bd fuel idx,
          bb.mnemonicsStart ≤ i ∧ i + 1 < bb.mnemonicsEnd) ↔
        boundaryAt mns entry bs bd i = false) := by
  intro fuel
  induction fuel with
  | zero =>
    intro idx i hfuel hi hlen
    exact absurd hfuel (by omega)
  | succ fuel ih =>
    intro idx i hfuel hi hlen
    have hidx : idx < mns.length := by omega
    have hcb := findCut_bounds mns entry bs bd idx hidx
    rcases Nat.lt_trichotomy (i + 1) (findCut mns entry bs bd idx) with hlt | heq | hgt
    · refine iff_of_true ?_ (findCut_minimal mns entry bs bd idx i hi hlt)
      simp only [partitionGo, hidx, if_true]
      exact ⟨_, List.mem_cons_self _ _, hi, hlt⟩
    · have hcut : findCut mns entry bs bd idx < mns.length := by omega
      have hB := findCut_cut mns entry bs bd idx hcut
      have hBi : boundaryAt mns entry bs bd i = true := by
        have : findCut mns entry bs bd idx - 1 = i := by omega
        rwa [this] at hB
      refine iff_of_false ?_ (by simp [hBi])
      rintro ⟨bb, hmem, hle, hend⟩
      simp only [partitionGo, hidx, if_true, List.mem_cons] at hmem
      rcases hmem with rfl | hmem
      · simp only at hend
        omega
      · have := partitionGo_start_le mns entry bs bd fuel _ bb hmem
        omega
    · have hiff := ih (findCut mns entry bs bd idx) i (by omega) (by omega) hlen
      rw [← hiff]
      constructor
      · rintro ⟨bb, hmem, hle, hend⟩
        simp only [partitionGo, hidx, if_true, List.mem_cons] at hmem
        rcases hmem with rfl | hmem
        · simp only at hend
          omega
        · exact ⟨bb, hmem, hle, hend⟩
      · rintro ⟨bb, hmem, hle, hend⟩
        refine ⟨bb, ?_, hle, hend⟩
        simp only [partitionGo, hidx, if_true, List.mem_cons]
        exact Or.inr hmem

/-! ## C1 — the boundary oracle -/

theorem any_constant_ne (l : List (Value × Guard)) (t : Nat) :
    (l.any fun p =>
      match p.1 with
      | .Constant value _ => value != t
      | _ => false) = true ↔ ∃ v bits g, (Value.Constant v bits, g) ∈ l ∧ v ≠ t := by
  rw [List.any_eq_true]
  constructor
  · rintro ⟨⟨val, gg⟩, hmem, hp⟩
    cases val with
    | Constant v bits => exact ⟨v, bits, gg, hmem, by simpa using hp⟩
    | Variable name bits sub => simp at hp
    | Undefined => simp at hp
  · rintro ⟨v, bits, gg, hmem, hne⟩
    exact ⟨(Value.Constant v bits, gg), hmem, by simpa using hne⟩

theorem boundary_iff_spec (a b : Mnemonic) (entry : Nat) (bs bd : JumpMap) :
    is_basic_block_boundary a b entry bs bd = true ↔ specBoundary a b entry bs bd := by
  simp only [is_basic_block_boundary, specBoundary, Bool.or_eq_true, bne_iff_ne, ne_eq,
    beq_iff_eq, any_constant_ne]
  constructor
  · intro h
    rcases h with ((h | h) | h) | h
    exacts [Or.inl h, Or.inr (Or.inl h), Or.inr (Or.inr (Or.inl h)),
      Or.inr (Or.inr (Or.inr h))]
  · intro h
    rcases h with h | h | h | h
    exacts [Or.inl (Or.inl (Or.inl h)), Or.inl (Or.inl (Or.inr h)), Or.inl (Or.inr h),
      Or.inr h]

/-- C1: the boundary oracle holds between adjacent mnemonics `a` and `b`
exactly under the spec's four-clause disjunction (non-constant map entries
never force a boundary on their own), and the assembler's partition separates
the adjacent pair `(i, i+1)` into different blocks exactly when the oracle
holds there. -/
theorem C1_boundary_oracle (mns : List Mnemonic) (entry : Nat) (bs bd : JumpMap)
    (a b : Mnemonic) (i : Nat) (hi : i + 1 < mns.length) :
    (is_basic_block_boundary a b entry bs bd = true ↔ specBoundary a b entry bs bd)
    ∧ ((¬ ∃ bb ∈ partitionBlocks mns entry bs bd,
          bb.mnemonicsStart ≤ i ∧ i + 1 < bb.mnemonicsEnd) ↔
        is_basic_block_boundary (mns.getD i default) (mns.getD (i + 1) default)
          entry bs bd = true) := by
  refine ⟨boundary_iff_spec a b entry bs bd, ?_⟩
  have hadj := partitionGo_adj mns entry bs bd (mns.length + 1) 0 i (by omega) (by omega) hi
  rw [show (is_basic_block_boundary (mns.getD i default) (mns.getD (i + 1) default)
      entry bs bd) = boundaryAt mns entry bs bd i from rfl]
  rw [partitionBlocks, not_iff_comm, hadj]
  cases boundaryAt mns entry bs bd i <;> simp

/-- C1 witness: on the two-mnemonic vector `[0,1)`, `[2,3)` with empty jump
maps and entry 0, the address gap forces a boundary, so no block contains the
adjacent pair; and the oracle agrees with the spec disjunction there. -/
theorem C1_boundary_oracle_witness :
    0 + 1 < ([mkMne 0 1 "a", mkMne 2 3 "b"] : List Mnemonic).length
    ∧ ¬ ∃ bb ∈ partitionBlocks [mkMne 0 1 "a", mkMne 2 3 "b"] 0 JumpMap.empty JumpMap.empty,
        bb.mnemonicsStart ≤ 0 ∧ 0 + 1 < bb.mnemonicsEnd :=
  ⟨by decide,
    (C1_boundary_oracle [mkMne 0 1 "a", mkMne 2 3 "b"] 0 JumpMap.empty JumpMap.empty
      (mkMne 0 1 "a") (mkMne 2 3 "b") 0 (by decide)).2.mpr (by decide)⟩

/-! ## Disassembly invariants (towards C4, C3, C6) -/

theorem mneStarts_eq (l : List (Mnemonic × List Stmt)) :
    mneStarts l = (l.map Prod.fst).map Mnemonic.areaStart := by
  simp [mneStarts, List.map_map]

theorem bsFound_eq_false_iff (l : List (Mnemonic × List Stmt)) (addr : Nat) :
    bsFound l addr = false ↔ ∀ p ∈ l, p.1.areaStart ≠ addr := by
  simp [bsFound]

theorem insertGroupAt_nil (pos : Nat) (l : List (Mnemonic × List Stmt)) :
    insertGroupAt pos [] l = l := by
  simp [insertGroupAt]

theorem mneStarts_insertGroupAt_single (pos : Nat) (m : Mnemonic) (s : List Stmt)
    (l : List (Mnemonic × List Stmt)) (y : Nat) :
    y ∈ mneStarts (insertGroupAt pos [(m, s)] l) ↔ y = m.areaStart ∨ y ∈ mneStarts l := by
  have h1 : insertGroupAt pos [(m, s)] l = l.take pos ++ (m, s) :: l.drop pos := by
    simp [insertGroupAt]
  rw [h1]
  unfold mneStarts
  rw [List.map_append, List.map_cons, List.mem_append, List.mem_cons]
  constructor
  · rintro (hy | hy | hy)
    · refine Or.inr ?_
      rw [← List.take_append_drop pos l, List.map_append, List.mem_append]
      exact Or.inl hy
    · exact Or.inl hy
    · refine Or.inr ?_
      rw [← List.take_append_drop pos l, List.map_append, List.mem_append]
      exact Or.inr hy
  · rintro (rfl | hy)
    · exact Or.inr (Or.inl rfl)
    · rw [← List.take_append_drop pos l, List.map_append, List.mem_append] at hy
      rcases hy with hy | hy
      · exact Or.inl hy
      · exact Or.inr (Or.inr hy)

theorem insert_sorted (m : Mnemonic) (s : List Stmt) (a : Nat) (hm : m.areaStart = a) :
    ∀ l : List (Mnemonic × List Stmt), (mneStarts l).Pairwise (· < ·) →
      (∀ p ∈ l, p.1.areaStart ≠ a) →
      (mneStarts (insertGroupAt (bsInsertPos l a) [(m, s)] l)).Pairwise (· < ·) := by
  intro l
  induction l with
  | nil =>
    intro _ _
    simp [insertGroupAt, bsInsertPos, mneStarts]
  | cons x xs ih =>
    intro hsorted hne
    have hxne : x.1.areaStart ≠ a := hne x (by simp)
    have hcons : mneStarts (x :: xs) = x.1.areaStart :: mneStarts xs := rfl
    rw [hcons, List.pairwise_cons] at hsorted
    obtain ⟨hsx, hsxs⟩ := hsorted
    by_cases hx : x.1.areaStart < a
    · have hpos : bsInsertPos (x :: xs) a = bsInsertPos xs a + 1 := by
        simp [bsInsertPos, List.countP_cons, hx]
      rw [hpos]
      have heq : insertGroupAt (bsInsertPos xs a + 1) [(m, s)] (x :: xs) =
          x :: insertGroupAt (bsInsertPos xs a) [(m, s)] xs := by
        simp [insertGroupAt]
      rw [heq]
      have hrest := ih hsxs (fun p hp => hne p (List.mem_cons_of_mem _ hp))
      show (x.1.areaStart ::
        mneStarts (insertGroupAt (bsInsertPos xs a) [(m, s)] xs)).Pairwise (· < ·)
      rw [List.pairwise_cons]
      refine ⟨?_, hrest⟩
      intro y hy
      rcases (mneStarts_insertGroupAt_single _ _ _ _ _).1 hy with rfl | hy
      · omega
      · exact hsx y hy
    · have hxgt : a < x.1.areaStart := by omega
      have hzero : bsInsertPos (x :: xs) a = 0 := by
        simp only [bsInsertPos, List.countP_cons]
        have h1 : List.countP (fun p => decide (p.1.areaStart < a)) xs = 0 := by
          rw [List.countP_eq_zero]
          intro p hp
          have hlt := hsx p.1.areaStart (List.mem_map_of_mem _ hp)
          simp only [decide_eq_true_eq]
          omega
        simp [h1, hx]
      rw [hzero]
      have heq : insertGroupAt 0 [(m, s)] (x :: xs) = (m, s) :: x :: xs := by
        simp [insertGroupAt]
      rw [heq]
      show (m.areaStart :: x.1.areaStart :: mneStarts xs).Pairwise (· < ·)
      rw [List.pairwise_cons]
      constructor
      · intro y hy
        rcases List.mem_cons.1 hy with rfl | hy
        · omega
        · have := hsx y hy
          omega
      · rw [List.pairwise_cons]
        exact ⟨hsx, hsxs⟩

theorem recordJump_mnemonics (acc : DisState Stmt × List Nat) (j : Nat × Rvalue × Guard)
    (acc' : DisState Stmt × List Nat) (h : recordJump acc j = .ok acc') :
    acc'.1.mnemonics = acc.1.mnemonics := by
  cases hj : j.2.1 with
  | Constant value size =>
    simp only [recordJump, hj, toVal, Value.val] at h
    cases h
    rfl
  | Variable name size sub off =>
    by_cases hs : size = 0
    · simp [recordJump, hj, toVal, Value.var, hs] at h
    · simp only [recordJump, hj, toVal, Value.var, hs, if_false] at h
      cases h
      rfl
  | Undefined =>
    simp only [recordJump, hj] at h
    cases h
    rfl

theorem recordJumps_mnemonics (jumps : List (Nat × Rvalue × Guard)) :
    ∀ (acc acc' : DisState Stmt × List Nat), recordJumps jumps acc = .ok acc' →
      acc'.1.mnemonics = acc.1.mnemonics := by
  induction jumps with
  | nil =>
    intro acc acc' h
    cases h
    rfl
  | cons j rest ih =>
    intro acc acc' h
    simp only [recordJumps] at h
    cases hj : recordJump acc j with
    | error e => rw [hj] at h; cases h
    | ok acc1 =>
      rw [hj] at h
      rw [ih acc1 acc' h, recordJump_mnemonics acc j acc1 hj]

theorem disassembleGo_sorted (decode : Nat → Except String (DecodeResult Stmt))
    (hdec : SingleDecode decode) :
    ∀ fuel todo st st', (mneStarts st.mnemonics).Pairwise (· < ·) →
      disassembleGo decode fuel todo st = .ok st' →
      (mneStarts st'.mnemonics).Pairwise (· < ·) := by
  intro fuel
  induction fuel with
  | zero =>
    intro todo st st' hsort h
    simp only [disassembleGo] at h
    by_cases ht : todo.isEmpty
    · rw [if_pos ht] at h; cases h; exact hsort
    · rw [if_neg ht] at h; cases h
  | succ fuel ih =>
    intro todo st st' hsort h
    cases todo with
    | nil => cases h; exact hsort
    | cons addr rest =>
      by_cases hf : bsFound st.mnemonics addr
      · simp only [disassembleGo, hf, if_true] at h
        exact ih rest st st' hsort h
      · cases hd : decode addr with
        | error e =>
          simp only [disassembleGo, hf, Bool.false_eq_true, if_false, hd] at h
          exact ih rest st st' hsort h
        | ok res =>
          simp only [disassembleGo, hf, Bool.false_eq_true, if_false, hd] at h
          cases hr : recordJumps res.jumps
              ({ st with mnemonics :=
                  insertGroupAt (bsInsertPos st.mnemonics addr) res.mnemonics st.mnemonics },
                rest) with
          | error e => rw [hr] at h; cases h
          | ok acc =>
            rw [hr] at h
            have hmne := recordJumps_mnemonics res.jumps _ acc hr
            have hsorted1 : (mneStarts acc.1.mnemonics).Pairwise (· < ·) := by
              rw [hmne]
              rcases hdec addr res hd with hempty | ⟨m, s, hms, hstart⟩
              · simpa [hempty, insertGroupAt_nil] using hsort
              · rw [hms]
                exact insert_sorted m s addr hstart st.mnemonics hsort
                  ((bsFound_eq_false_iff _ _).1 (by simpa using hf))
            exact ih acc.2 acc.1 st' hsorted1 h

theorem getD_of_getElem? (l : List α) (i : Nat) (d x : α) (h : l[i]? = some x) :
    l.getD i d = x := by
  have hlen : i < l.length := by
    by_contra hc
    rw [List.getElem?_eq_none (by omega)] at h
    cases h
  rw [List.getD_eq_getElem l d hlen]
  rw [List.getElem?_eq_getElem hlen] at h
  cases h
  rfl

theorem pairwise_lt_getD (l : List Nat) (h : l.Pairwise (· < ·)) (a b : Nat) (hab : a < b)
    (hb : b < l.length) : l.getD a 0 < l.getD b 0 := by
  rw [List.getD_eq_getElem l 0 (by omega), List.getD_eq_getElem l 0 hb]
  rw [List.pairwise_iff_getElem] at h
  exact h a b (by omega) hb hab

theorem areaStart_getD (mns : List Mnemonic) (i : Nat) (hi : i < mns.length) :
    (mns.getD i default).areaStart = (mns.map Mnemonic.areaStart).getD i 0 := by
  rw [List.getD_eq_getElem mns default hi,
    List.getD_eq_getElem (mns.map Mnemonic.areaStart) 0 (by simpa using hi),
    List.getElem_map]

theorem tilesFrom_bounds (len : Nat) :
    ∀ l i, tilesFrom len i l →
      ∀ bb ∈ l, bb.mnemonicsStart < bb.mnemonicsEnd ∧ bb.mnemonicsEnd ≤ len := by
  intro l
  induction l with
  | nil => intro i _ bb hbb; simp at hbb
  | cons b rest ih =>
    intro i ht bb hbb
    obtain ⟨hstart, hlt, hle, hrest⟩ := ht
    rcases List.mem_cons.1 hbb with rfl | hbb
    · exact ⟨by omega, hle⟩
    · exact ih _ hrest bb hbb

theorem setNodes_areaStart_map (i : Nat) (l : List BasicBlock) :
    (setNodes i l).map BasicBlock.areaStart = l.map BasicBlock.areaStart := by
  induction l generalizing i with
  | nil => rfl
  | cons b rest ih => simp [setNodes, ih]

theorem setNodes_exists (i : Nat) (l : List BasicBlock) (entry : Nat) :
    (∃ bb ∈ setNodes i l, bb.areaStart = entry) ↔ ∃ bb ∈ l, bb.areaStart = entry := by
  rw [← List.mem_map (f := BasicBlock.areaStart), ← List.mem_map (f := BasicBlock.areaStart),
    setNodes_areaStart_map]

theorem pushAll_error (pushOk : Stmt → Bool) :
    ∀ stmts code e, pushAll pushOk code stmts = .error e → e = FnError.statementPushFailure := by
  intro stmts
  induction stmts with
  | nil => intro code e h; simp [pushAll] at h
  | cons s rest ih =>
    intro code e h
    simp only [pushAll] at h
    cases hp : pushOk s with
    | true => rw [if_pos (by simp [hp])] at h; exact ih _ _ h
    | false => rw [if_neg (by simp [hp])] at h; cases h; rfl

theorem emitBlockGo_error (pushOk : Stmt → Bool) (mnemonics : List (Mnemonic × List Stmt)) :
    ∀ count pos acc e, emitBlockGo pushOk mnemonics pos count acc = .error e →
      e = FnError.statementPushFailure := by
  intro count
  induction count with
  | zero => intro pos acc e h; simp [emitBlockGo] at h
  | succ count ih =>
    intro pos acc e h
    simp only [emitBlockGo] at h
    cases hp : pushAll pushOk acc.1 ((mnemonics.getD pos (default, [])).2) with
    | error e' =>
      rw [hp] at h
      cases h
      exact pushAll_error pushOk _ _ _ hp
    | ok code' =>
      rw [hp] at h
      exact ih _ _ _ h

theorem emitCodeGo_error (pushOk : Stmt → Bool) (g : Cfg) (blocks : List BasicBlock)
    (mnemonics : List (Mnemonic × List Stmt)) :
    ∀ order acc e, emitCodeGo pushOk g blocks mnemonics order acc = .error e →
      e = FnError.statementPushFailure := by
  intro order
  induction order with
  | nil => intro acc e h; simp [emitCodeGo] at h
  | cons n rest ih =>
    intro acc e h
    simp only [emitCodeGo] at h
    cases hn : g.nodes.get? n with
    | none => rw [hn] at h; exact ih _ _ h
    | some w =>
      cases w with
      | Value v => rw [hn] at h; exact ih _ _ h
      | BasicBlock idx =>
        rw [hn] at h
        dsimp only at h
        cases hb : emitBlock pushOk mnemonics (blocks.getD idx default) acc with
        | error e' =>
          rw [hb] at h
          cases h
          exact emitBlockGo_error pushOk mnemonics _ _ _ _ hb
        | ok acc' =>
          rw [hb] at h
          exact ih _ _ h

theorem applyRanges_map_area (mnemonics : List (Mnemonic × List Stmt)) :
    ∀ ranges, (applyRanges mnemonics ranges).map Mnemonic.areaStart =
      (mnemonics.map Prod.fst).map Mnemonic.areaStart := by
  induction mnemonics with
  | nil => intro ranges; rfl
  | cons p rest ih =>
    intro ranges
    cases ranges with
    | nil => simp [applyRanges, ih]
    | cons r rs => simp [applyRanges, ih]

theorem assembleF_ok_fields (f : Function Stmt) (entry : Nat)
    (mnemonics : List (Mnemonic × List Stmt)) (bs bd : JumpMap) (pushOk : Stmt → Bool)
    (f' : Function Stmt) (h : Function.assembleF f entry mnemonics bs bd pushOk = .ok f') :
    f'.basicBlocks = setNodes 0 (partitionBlocks (mnemonics.map Prod.fst) entry bs bd)
    ∧ firstMatchIdx (fun bb => bb.areaStart == entry) f'.basicBlocks = some f'.entryPoint
    ∧ f'.mnemonics.map Mnemonic.areaStart = (mnemonics.map Prod.fst).map Mnemonic.areaStart := by
  simp only [Function.assembleF] at h
  split at h
  · cases h
  · rename_i entry_idx heq1
    split at h
    · cases h
    · cases h
      exact ⟨rfl, heq1, applyRanges_map_area mnemonics _⟩

/-- C2: the spec says `contains(addr)` is true iff some block's range covers
`addr` (`area.start <= addr < area.end`), and the doc comment of
`Function::contains` promises the same; the code instead tests
`bb.area.start >= address && address < bb.area.end` (function.rs 950).  On the
single-block function `fHigh` covering `[2,4)`, `contains 3` is `false`
although 3 is covered, and `contains 1` is `true` although 1 is not covered. -/
theorem C2_contains_code_bug :
    fHigh.basicBlocks.map (fun bb => (bb.areaStart, bb.areaEnd)) = [(2, 4)]
    ∧ coversAddress fHigh 3 = true ∧ fHigh.contains 3 = false
    ∧ coversAddress fHigh 1 = false ∧ fHigh.contains 1 = true := by
  decide

/-! ## C9 — resolve_indirect_jump -/

/-- C9: `resolve_indirect_jump(v, c)` returns `true` iff the CFG has a node
whose payload is `Value::Variable(v)`; when it does, the first such node's
payload becomes `Value::Constant(c)` and every other node keeps its payload;
in every case the mnemonic vector, block vector, IL container, entry-point
index and all CFG edges are unchanged, and on `false` the whole function is
unchanged. -/
theorem C9_resolve_indirect_jump (f : Function Stmt) (var : Variable) (val : Constant) :
    ((f.resolve_indirect_jump var val).2 = true ↔
      (CfgNode.Value (.Variable var.name var.bits var.subscript)) ∈ f.cflowGraph.nodes)
    ∧ ((f.resolve_indirect_jump var val).2 = true →
        ∃ i, f.cflowGraph.nodes[i]? =
            some (.Value (.Variable var.name var.bits var.subscript)) ∧
          (f.resolve_indirect_jump var val).1.cflowGraph.nodes =
            f.cflowGraph.nodes.set i (.Value (.Constant val.value val.bits)) ∧
          ∀ j, j ≠ i →
            (f.resolve_indirect_jump var val).1.cflowGraph.nodes[j]? =
              f.cflowGraph.nodes[j]?)
    ∧ (f.resolve_indirect_jump var val).1.mnemonics = f.mnemonics
    ∧ (f.resolve_indirect_jump var val).1.basicBlocks = f.basicBlocks
    ∧ (f.resolve_indirect_jump var val).1.code = f.code
    ∧ (f.resolve_indirect_jump var val).1.entryPoint = f.entryPoint
    ∧ (f.resolve_indirect_jump var val).1.cflowGraph.edges = f.cflowGraph.edges
    ∧ ((f.resolve_indirect_jump var val).2 = false → (f.resolve_indirect_jump var val).1 = f) := by
  cases h : firstMatchIdx
      (fun n => n == CfgNode.Value (.Variable var.name var.bits var.subscript))
      f.cflowGraph.nodes with
  | none =>
    have hnm : (CfgNode.Value (.Variable var.name var.bits var.subscript)) ∉ f.cflowGraph.nodes := by
      intro hmem
      have := (firstMatchIdx_none_iff _ _).1 h _ hmem
      simp at this
    simp [Function.resolve_indirect_jump, h, hnm]
  | some i =>
    obtain ⟨x, hx, hpx⟩ := firstMatchIdx_some _ _ _ h
    have hxeq : x = CfgNode.Value (.Variable var.name var.bits var.subscript) := by
      simpa using hpx
    subst hxeq
    refine ⟨?_, ?_, ?_, ?_, ?_, ?_, ?_, ?_⟩ <;>
      simp [Function.resolve_indirect_jump, h]
    · exact List.getElem?_mem hx
    · exact ⟨i, hx, rfl, fun j hj => List.getElem?_set_ne (Ne.symm hj)⟩

/-- C9 witness: applying the theorem at the concrete function `fC10` resolves
the variable `A` to the constant 5. -/
theorem C9_resolve_indirect_jump_witness :
    (fC10.resolve_indirect_jump ⟨"A", 1, none⟩ ⟨5, 1⟩).2 = true :=
  (C9_resolve_indirect_jump fC10 ⟨"A", 1, none⟩ ⟨5, 1⟩).1.mpr (by decide)

/-! ## C10 — one UnresolvedTarget node per jump record -/

/-- C10: assembling two blocks that each jump to the same symbolic variable
`A` allocates two distinct `UnresolvedTarget` nodes with equal payload
(nodes 2 and 3), `indirect_jumps()` yields `A` once per node, and a single
`resolve_indirect_jump` call mutates only the first matching node. -/
theorem C10_fresh_unresolved_nodes :
    fC10.cflowGraph.nodes =
      [.BasicBlock 0, .BasicBlock 1, .Value vA, .Value vA]
    ∧ fC10.cflowGraph.edges.map (fun e => (e.1, e.2.1)) = [(0, 2), (1, 3)]
    ∧ fC10.indirect_jumps = [⟨"A", 1, none⟩, ⟨"A", 1, none⟩]
    ∧ (fC10.resolve_indirect_jump ⟨"A", 1, none⟩ ⟨5, 1⟩).2 = true
    ∧ (fC10.resolve_indirect_jump ⟨"A", 1, none⟩ ⟨5, 1⟩).1.cflowGraph.nodes =
      [.BasicBlock 0, .BasicBlock 1, .Value (.Constant 5 1), .Value vA] := by
  decide

/-! ## Entry-block correspondence and sorted blocks (towards C3, C4, C6) -/

theorem getD_map_key [Inhabited α] (key : α → Nat) (l : List α) (i : Nat) (hi : i < l.length) :
    key (l.getD i default) = (l.map key).getD i 0 := by
  rw [List.getD_eq_getElem l default hi,
    List.getD_eq_getElem (l.map key) 0 (by simpa using hi), List.getElem_map]

theorem boundary_of_entry (a b : Mnemonic) (entry : Nat) (bs bd : JumpMap)
    (h : b.areaStart = entry) : is_basic_block_boundary a b entry bs bd = true := by
  unfold is_basic_block_boundary
  simp [h]

theorem emitCode_error (pushOk : Stmt → Bool) (g : Cfg) (blocks : List BasicBlock)
    (mnemonics : List (Mnemonic × List Stmt)) (order : List Nat) (e : FnError)
    (h : emitCode pushOk g blocks mnemonics order = .error e) :
    e = FnError.statementPushFailure :=
  emitCodeGo_error pushOk g blocks mnemonics order _ e h

theorem partition_entry_iff (mns : List Mnemonic) (entry : Nat) (bs bd : JumpMap) :
    (∃ bb ∈ partitionBlocks mns entry bs bd, bb.areaStart = entry) ↔
      ∃ m ∈ mns, m.areaStart = entry := by
  constructor
  · rintro ⟨bb, hmem, hstart⟩
    have hA := (partitionGo_areas mns entry bs bd (mns.length + 1) 0 bb hmem).1
    have hT := tilesFrom_bounds mns.length _ 0
      (partitionGo_tiles mns entry bs bd (mns.length + 1) 0 (by omega)) bb hmem
    have hlt : bb.mnemonicsStart < mns.length := by omega
    refine ⟨mns.getD bb.mnemonicsStart default, ?_, by rw [← hA]; exact hstart⟩
    rw [List.getD_eq_getElem mns default hlt]
    exact List.getElem_mem hlt
  · rintro ⟨m, hmem, hstart⟩
    obtain ⟨i, hi, heq⟩ := List.mem_iff_getElem.1 hmem
    cases Nat.eq_zero_or_pos i with
    | inl hz =>
      subst hz
      obtain ⟨bb, hbb, hstart0⟩ :=
        partitionGo_head mns entry bs bd (mns.length + 1) 0 (by omega) (by omega)
      refine ⟨bb, hbb, ?_⟩
      have hA := (partitionGo_areas mns entry bs bd (mns.length + 1) 0 bb hbb).1
      rw [hA, hstart0, List.getD_eq_getElem mns default (by omega), heq]
      exact hstart
    | inr hpos =>
      have hB : boundaryAt mns entry bs bd (i - 1) = true := by
        unfold boundaryAt
        have hsucc : i - 1 + 1 = i := by omega
        rw [hsucc]
        refine boundary_of_entry _ _ entry bs bd ?_
        rw [List.getD_eq_getElem mns default hi, heq]
        exact hstart
      obtain ⟨bb, hbb, hbstart⟩ :=
        partitionGo_cutStart mns entry bs bd (mns.length + 1) 0 i (by omega) (by omega) hi hB
      refine ⟨bb, hbb, ?_⟩
      have hA := (partitionGo_areas mns entry bs bd (mns.length + 1) 0 bb hbb).1
      rw [hA, hbstart, List.getD_eq_getElem mns default hi, heq]
      exact hstart

theorem assembleF_noEntry_iff (f : Function Stmt) (entry : Nat)
    (mnemonics : List (Mnemonic × List Stmt)) (bs bd : JumpMap) (pushOk : Stmt → Bool) :
    (Function.assembleF f entry mnemonics bs bd pushOk = .error .noEntryBlock) ↔
      ∀ p ∈ mnemonics, p.1.areaStart ≠ entry := by
  have hcorr : (∃ bb ∈ setNodes 0 (partitionBlocks (mnemonics.map Prod.fst) entry bs bd),
      bb.areaStart = entry) ↔ ∃ p ∈ mnemonics, p.1.areaStart = entry := by
    rw [setNodes_exists, partition_entry_iff]
    constructor
    · rintro ⟨m, hm, hstart⟩
      obtain ⟨p, hp, rfl⟩ := List.mem_map.1 hm
      exact ⟨p, hp, hstart⟩
    · rintro ⟨p, hp, hstart⟩
      exact ⟨p.1, List.mem_map_of_mem _ hp, hstart⟩
  simp only [Function.assembleF]
  cases hfm : firstMatchIdx (fun bb => bb.areaStart == entry)
      (setNodes 0 (partitionBlocks (mnemonics.map Prod.fst) entry bs bd)) with
  | none =>
    simp only [hfm]
    refine iff_of_true (by trivial) ?_
    intro p hp hcontra
    obtain ⟨bb, hbb, hbs⟩ := hcorr.2 ⟨p, hp, hcontra⟩
    have hfalse := (firstMatchIdx_none_iff _ _).1 hfm bb hbb
    simp [hbs] at hfalse
  | some entry_idx =>
    simp only [hfm]
    refine iff_of_false ?_ ?_
    · intro hL
      split at hL
      · rename_i e' heq
        cases hL
        cases emitCode_error pushOk _ _ mnemonics _ _ heq
      · cases hL
    · intro hR
      have hsome : (firstMatchIdx (fun bb => bb.areaStart == entry)
          (setNodes 0 (partitionBlocks (mnemonics.map Prod.fst) entry bs bd))).isSome := by
        rw [hfm]; rfl
      obtain ⟨bb, hbb, hpb⟩ := (firstMatchIdx_isSome_iff _ _).1 hsome
      obtain ⟨p, hp, hps⟩ := hcorr.1 ⟨bb, hbb, by simpa using hpb⟩
      exact hR p hp hps

theorem partitionGo_areaStarts_sorted (mns : List Mnemonic) (entry : Nat) (bs bd : JumpMap)
    (hs : (mns.map Mnemonic.areaStart).Pairwise (· < ·)) :
    ∀ fuel idx, mns.length - idx ≤ fuel →
      ((partitionGo mns entry bs bd fuel idx).map BasicBlock.areaStart).Pairwise (· < ·) := by
  intro fuel
  induction fuel with
  | zero => intro idx h; simp [partitionGo]
  | succ fuel ih =>
    intro idx h
    by_cases hidx : idx < mns.length
    · have hcb := findCut_bounds mns entry bs bd idx hidx
      simp only [partitionGo, hidx, if_true, List.map_cons]
      rw [List.pairwise_cons]
      constructor
      · intro y hy
        obtain ⟨bb, hbb, rfl⟩ := List.mem_map.1 hy
        have hge := partitionGo_start_le mns entry bs bd fuel (findCut mns entry bs bd idx) bb hbb
        have hbounds := tilesFrom_bounds mns.length _ _
          (partitionGo_tiles mns entry bs bd fuel (findCut mns entry bs bd idx) (by omega))
          bb hbb
        have hA := (partitionGo_areas mns entry bs bd fuel _ bb hbb).1
        show (mns.getD idx default).areaStart < bb.areaStart
        rw [hA, areaStart_getD mns idx hidx, areaStart_getD mns bb.mnemonicsStart (by omega)]
        exact pairwise_lt_getD _ hs idx bb.mnemonicsStart (by omega) (by simpa using
          (show bb.mnemonicsStart < mns.length by omega))
      · exact ih _ (by omega)
    · simp [partitionGo, hidx]

theorem new_ok_destruct (decode : Nat → Except String (DecodeResult Stmt)) (start : Nat)
    (name : Option String) (pushOk : Stmt → Bool) (fuel : Nat) (f' : Function Stmt)
    (hok : Function.new decode start name pushOk fuel = .ok f') :
    ∃ st, disassembleFrom decode fuel [start] ⟨[], JumpMap.empty, JumpMap.empty⟩ = .ok st ∧
      Function.assembleF (Function.initial Stmt start name) start st.mnemonics st.bySource
        st.byDestination pushOk = .ok f' := by
  simp only [Function.new] at hok
  cases hd : disassembleFrom decode fuel [start] ⟨[], JumpMap.empty, JumpMap.empty⟩ with
  | error e => rw [hd] at hok; cases hok
  | ok st =>
    rw [hd] at hok
    exact ⟨st, rfl, hok⟩

theorem blocks_sorted_core (f : Function Stmt) (entry : Nat)
    (mnemonics : List (Mnemonic × List Stmt)) (bs bd : JumpMap) (pushOk : Stmt → Bool)
    (f' : Function Stmt) (hsorted : (mneStarts mnemonics).Pairwise (· < ·))
    (hasm : Function.assembleF f entry mnemonics bs bd pushOk = .ok f') :
    (f'.basicBlocks.map BasicBlock.areaStart).Pairwise (· < ·) := by
  have hfields := assembleF_ok_fields f entry mnemonics bs bd pushOk f' hasm
  rw [hfields.1, setNodes_areaStart_map]
  have hsorted' : ((mnemonics.map Prod.fst).map Mnemonic.areaStart).Pairwise (· < ·) := by
    rw [← mneStarts_eq]
    exact hsorted
  simp only [partitionBlocks]
  exact partitionGo_areaStarts_sorted _ entry bs bd hsorted' _ 0 (by omega)

/-! ## C3 — block-vector order -/

/-- C3: the claim says the basic-block vector is ordered in reverse-postorder
from the entry block.  The loop entered at address 1 (`fSplit`, the
`issue_51` scenario) yields the block vector `[0,1), [1,3)` in address order,
while the reverse-postorder of its CFG from the entry block is `[1, 0]`:
the vector order `[0, 1]` is not reverse-postorder. -/
theorem C3_counterexample_rpo :
    Function.new decSplit 1 none okPush 20 = .ok fSplit
    ∧ fSplit.basicBlocks.map (fun bb => (bb.areaStart, bb.areaEnd)) = [(0, 1), (1, 3)]
    ∧ revPostorderIdx fSplit = [1, 0]
    ∧ List.range fSplit.basicBlocks.length ≠ revPostorderIdx fSplit := by
  decide

/-- C3 amended: after every successful construction the block vector is sorted
by strictly ascending start address (for decoders that produce at most one
mnemonic per decode, starting at the decoded address); only the IL statement
stream is laid out by the postorder walk. -/
theorem C3_amended_blocks_address_ordered (decode : Nat → Except String (DecodeResult Stmt))
    (start : Nat) (name : Option String) (pushOk : Stmt → Bool) (fuel : Nat)
    (f' : Function Stmt) (hdec : SingleDecode decode)
    (hok : Function.new decode start name pushOk fuel = .ok f') :
    (f'.basicBlocks.map BasicBlock.areaStart).Pairwise (· < ·) := by
  obtain ⟨st, hd, hasm⟩ := new_ok_destruct decode start name pushOk fuel f' hok
  have hd' : disassembleGo decode fuel [start] ⟨[], JumpMap.empty, JumpMap.empty⟩ = .ok st := hd
  have hsorted := disassembleGo_sorted decode hdec fuel [start] _ st (by simp [mneStarts]) hd'
  exact blocks_sorted_core _ start st.mnemonics st.bySource st.byDestination pushOk f'
    hsorted hasm

theorem singleDecode_decOverlap : SingleDecode decOverlap := by
  intro addr res h
  rcases addr with _ | _ | _ | n
  · cases h; exact Or.inr ⟨_, _, rfl, rfl⟩
  · cases h; exact Or.inr ⟨_, _, rfl, rfl⟩
  · cases h; exact Or.inr ⟨_, _, rfl, rfl⟩
  · cases h

theorem singleDecode_decBranch : SingleDecode decBranch := by
  intro addr res h
  rcases addr with _ | _ | _ | n
  · cases h; exact Or.inr ⟨_, _, rfl, rfl⟩
  · cases h; exact Or.inr ⟨_, _, rfl, rfl⟩
  · cases h; exact Or.inr ⟨_, _, rfl, rfl⟩
  · cases h

/-- C3 amended witness: the overlap function's block vector is strictly
address-ordered. -/
theorem C3_amended_blocks_address_ordered_witness :
    (fOverlap.basicBlocks.map BasicBlock.areaStart).Pairwise (· < ·) :=
  C3_amended_blocks_address_ordered decOverlap 0 none okPush 20 fOverlap
    singleDecode_decOverlap (by decide)

/-! ## C4 — mnemonic vector order and overlap -/

/-- C4: the claim also says mnemonics are pairwise non-overlapping.  The
`issue_232`-style decoder produces a function whose mnemonic vector holds the
overlapping mnemonics `[0,2)` and `[1,2)` (a jump into the middle of the wide
instruction is re-decoded as its own mnemonic). -/
theorem C4_counterexample_overlap :
    Function.new decOverlap 0 none okPush 20 = .ok fOverlap
    ∧ fOverlap.mnemonics.map (fun m => (m.areaStart, m.areaEnd)) = [(0, 2), (1, 2), (2, 3)]
    ∧ ¬ disjointAreas (fOverlap.mnemonics.getD 0 default) (fOverlap.mnemonics.getD 1 default) := by
  decide

/-- C4 amended: after every successful construction (for decoders that
produce at most one mnemonic per decode, starting at the decoded address) the
mnemonic vector is strictly sorted by start address; pairwise non-overlap
does not hold in general. -/
theorem C4_amended_mnemonics_sorted (decode : Nat → Except String (DecodeResult Stmt))
    (start : Nat) (name : Option String) (pushOk : Stmt → Bool) (fuel : Nat)
    (f' : Function Stmt) (hdec : SingleDecode decode)
    (hok : Function.new decode start name pushOk fuel = .ok f') :
    (f'.mnemonics.map Mnemonic.areaStart).Pairwise (· < ·) := by
  obtain ⟨st, hd, hasm⟩ := new_ok_destruct decode start name pushOk fuel f' hok
  have hd' : disassembleGo decode fuel [start] ⟨[], JumpMap.empty, JumpMap.empty⟩ = .ok st := hd
  have hsorted := disassembleGo_sorted decode hdec fuel [start] _ st (by simp [mneStarts]) hd'
  have hfields := assembleF_ok_fields _ start st.mnemonics st.bySource st.byDestination
    pushOk f' hasm
  rw [hfields.2.2, ← mneStarts_eq]
  exact hsorted

/-- C4 amended witness: the branch function's mnemonic vector is strictly
sorted by start address. -/
theorem C4_amended_mnemonics_sorted_witness :
    (fBranch.mnemonics.map Mnemonic.areaStart).Pairwise (· < ·) :=
  C4_amended_mnemonics_sorted decBranch 0 none okPush 20 fBranch
    singleDecode_decBranch (by decide)

/-! ## C6 — NoEntryBlock and the entry block -/

/-- C6: `new`, `with_uuid` and `extend` return *NoEntryBlock* exactly when no
mnemonic of the (re-)disassembled vector starts at the entry address; and on
success (given pairwise strictly increasing mnemonic starts) the entry block
stored at `entry_point` starts at the entry address and no other block does,
so `entry_address()` returns the original entry. -/
theorem C6_no_entry_block (decode : Nat → Except String (DecodeResult Stmt))
    (start : Nat) (name : Option String) (uuid : Nat) (pushOk : Stmt → Bool) (fuel : Nat)
    (f : Function Stmt) :
    (∀ st, disassembleFrom decode fuel [start] ⟨[], JumpMap.empty, JumpMap.empty⟩ = .ok st →
      ((Function.new decode start name pushOk fuel = .error .noEntryBlock ↔
          ∀ p ∈ st.mnemonics, p.1.areaStart ≠ start)
        ∧ (Function.with_uuid decode start uuid name pushOk fuel = .error .noEntryBlock ↔
          ∀ p ∈ st.mnemonics, p.1.areaStart ≠ start)))
    ∧ (∀ maps st,
        f.cflowGraph.edges.foldlM (extendEdgeStep f) (JumpMap.empty, JumpMap.empty, []) =
          .ok maps →
        disassembleFrom decode fuel maps.2.2
          ⟨f.mnemonics.map (fun mne => (mne, codeSlice f.code mne.stmtStart mne.stmtEnd)),
            maps.1, maps.2.1⟩ = .ok st →
        (f.extend decode pushOk fuel = .error .noEntryBlock ↔
          ∀ p ∈ st.mnemonics, p.1.areaStart ≠ f.entry_address))
    ∧ (∀ st f', disassembleFrom decode fuel [start] ⟨[], JumpMap.empty, JumpMap.empty⟩ =
          .ok st →
        Function.new decode start name pushOk fuel = .ok f' →
        (mneStarts st.mnemonics).Pairwise (· < ·) →
        f'.entry_address = start
        ∧ (f'.basicBlocks.getD f'.entryPoint default).areaStart = start
        ∧ ∀ i j, i < f'.basicBlocks.length → j < f'.basicBlocks.length →
            (f'.basicBlocks.getD i default).areaStart = start →
            (f'.basicBlocks.getD j default).areaStart = start → i = j) := by
  refine ⟨?_, ?_, ?_⟩
  · intro st hd
    have hnew : Function.new decode start name pushOk fuel =
        (Function.initial Stmt start name).assembleF start st.mnemonics st.bySource
          st.byDestination pushOk := by
      simp only [Function.new, hd]
    constructor
    · rw [hnew]
      exact assembleF_noEntry_iff _ start st.mnemonics _ _ pushOk
    · have hmap : (Function.with_uuid decode start uuid name pushOk fuel =
          .error .noEntryBlock) ↔
          (Function.new decode start name pushOk fuel = .error .noEntryBlock) := by
        simp only [Function.with_uuid]
        cases Function.new decode start name pushOk fuel <;> simp [Except.map]
      rw [hmap, hnew]
      exact assembleF_noEntry_iff _ start st.mnemonics _ _ pushOk
  · intro maps st hfold hd
    have hext : f.extend decode pushOk fuel =
        f.assembleF f.entry_address st.mnemonics st.bySource st.byDestination pushOk := by
      simp only [Function.extend, hfold, hd]
    rw [hext]
    exact assembleF_noEntry_iff f f.entry_address st.mnemonics _ _ pushOk
  · intro st f' hd hok hsorted
    have hasm : (Function.initial Stmt start name).assembleF start st.mnemonics st.bySource
        st.byDestination pushOk = .ok f' := by
      obtain ⟨st2, hd2, hasm2⟩ := new_ok_destruct decode start name pushOk fuel f' hok
      rw [hd] at hd2
      cases hd2
      exact hasm2
    have hfields := assembleF_ok_fields _ start st.mnemonics st.bySource st.byDestination
      pushOk f' hasm
    have hbsorted := blocks_sorted_core _ start st.mnemonics st.bySource st.byDestination
      pushOk f' hsorted hasm
    obtain ⟨bb, hbbget, hbs⟩ := firstMatchIdx_some _ _ _ hfields.2.1
    have hbs' : bb.areaStart = start := by simpa using hbs
    have hentry : (f'.basicBlocks.getD f'.entryPoint default).areaStart = start := by
      rw [getD_of_getElem? _ _ _ _ hbbget]
      exact hbs'
    refine ⟨hentry, hentry, ?_⟩
    intro i j hi hj hsi hsj
    rcases Nat.lt_trichotomy i j with hlt | heq | hgt
    · have := pairwise_lt_getD _ hbsorted i j hlt (by simpa using hj)
      rw [← getD_map_key BasicBlock.areaStart _ i hi,
        ← getD_map_key BasicBlock.areaStart _ j hj, hsi, hsj] at this
      omega
    · exact heq
    · have := pairwise_lt_getD _ hbsorted j i hgt (by simpa using hi)
      rw [← getD_map_key BasicBlock.areaStart _ j hj,
        ← getD_map_key BasicBlock.areaStart _ i hi, hsi, hsj] at this
      omega

/-- C6 witness: with `decHigh` no mnemonic decodes at entry 0 (the decoder
fails there), so `new` returns *NoEntryBlock*; and the branch function's
entry address is its construction entry 0. -/
theorem C6_no_entry_block_witness :
    Function.new decHigh 0 none okPush 20 = Except.error FnError.noEntryBlock
    ∧ fBranch.entry_address = 0 :=
  ⟨((C6_no_entry_block decHigh 0 none 7 okPush 20 (Function.initial Nat 0 none)).1
      ⟨[], JumpMap.empty, JumpMap.empty⟩ rfl).1.mpr (by decide),
    (((C6_no_entry_block decBranch 0 none 7 okPush 20 (Function.initial Nat 0 none)).2.2
      stBranch fBranch rfl (by decide) (by decide)).1)⟩

/-! ## C5 — popped addresses inside an existing mnemonic -/

theorem mem_insertGroupAt_of_mem (pos : Nat) (grp l : List (Mnemonic × List Stmt))
    (p : Mnemonic × List Stmt) (h : p ∈ l) : p ∈ insertGroupAt pos grp l := by
  unfold insertGroupAt
  rw [← List.take_append_drop pos l, List.mem_append] at h
  rcases h with h | h
  · simp [h]
  · simp [h]

theorem mem_insertGroupAt_of_mem_group (pos : Nat) (grp l : List (Mnemonic × List Stmt))
    (p : Mnemonic × List Stmt) (h : p ∈ grp) : p ∈ insertGroupAt pos grp l := by
  unfold insertGroupAt
  simp [h]

theorem disassembleGo_mono (decode : Nat → Except String (DecodeResult Stmt)) :
    ∀ fuel todo (st st' : DisState Stmt), disassembleGo decode fuel todo st = .ok st' →
      ∀ p ∈ st.mnemonics, p ∈ st'.mnemonics := by
  intro fuel
  induction fuel with
  | zero =>
    intro todo st st' h
    simp only [disassembleGo] at h
    by_cases ht : todo.isEmpty
    · rw [if_pos ht] at h; cases h; exact fun p hp => hp
    · rw [if_neg ht] at h; cases h
  | succ fuel ih =>
    intro todo st st' h
    cases todo with
    | nil => cases h; exact fun p hp => hp
    | cons addr rest =>
      by_cases hf : bsFound st.mnemonics addr
      · simp only [disassembleGo, hf, if_true] at h
        exact ih rest st st' h
      · cases hd : decode addr with
        | error e =>
          simp only [disassembleGo, hf, Bool.false_eq_true, if_false, hd] at h
          exact ih rest st st' h
        | ok res =>
          simp only [disassembleGo, hf, Bool.false_eq_true, if_false, hd] at h
          cases hr : recordJumps res.jumps
              ({ st with mnemonics :=
                  insertGroupAt (bsInsertPos st.mnemonics addr) res.mnemonics st.mnemonics },
                rest) with
          | error e => rw [hr] at h; cases h
          | ok acc =>
            rw [hr] at h
            intro p hp
            have hmne := recordJumps_mnemonics res.jumps _ acc hr
            refine ih acc.2 acc.1 st' h p ?_
            rw [hmne]
            exact mem_insertGroupAt_of_mem _ _ _ p hp

/-- C5 counterexample: the claim says a popped address strictly inside an
already-decoded mnemonic is only logged and not re-decoded.  From the state
holding only the mnemonic `[0,2)`, popping address 1 (strictly inside it, not
a mnemonic start) invokes the decoder and inserts a new mnemonic starting at
1. -/
theorem C5_counterexample_mid_instruction :
    stMid.mnemonics.map (fun p => (p.1.areaStart, p.1.areaEnd)) = [(0, 2)]
    ∧ bsFound stMid.mnemonics 1 = false
    ∧ (disassembleGo decMid 1 [1] stMid).map
        (fun st => st.mnemonics.map (fun p => (p.1.areaStart, p.1.areaEnd))) =
      .ok [(0, 2), (1, 2)] := by
  decide

/-- C5 amended: the work queue skips a popped address only when it is the
*start* of an existing mnemonic (the mid-instruction diagnostic's condition
`mne.area.start != addr` can never hold on a binary-search hit); when no
mnemonic starts there — even if the address lies strictly inside one — the
decoder is invoked and a successful decode's mnemonics are inserted into the
vector. -/
theorem C5_amended_decode_on_miss (decode : Nat → Except String (DecodeResult Stmt))
    (fuel : Nat) (addr : Nat) (todo : List Nat) (st : DisState Stmt) :
    (bsFound st.mnemonics addr = true →
      disassembleGo decode (fuel + 1) (addr :: todo) st = disassembleGo decode fuel todo st)
    ∧ (∀ res p st', bsFound st.mnemonics addr = false →
        decode addr = .ok res →
        p ∈ res.mnemonics →
        disassembleGo decode (fuel + 1) (addr :: todo) st = .ok st' →
        p ∈ st'.mnemonics) := by
  constructor
  · intro hf
    simp only [disassembleGo, hf, if_true]
  · intro res p st' hf hd hp h
    simp only [disassembleGo, hf, Bool.false_eq_true, if_false, hd] at h
    cases hr : recordJumps res.jumps
        ({ st with mnemonics :=
            insertGroupAt (bsInsertPos st.mnemonics addr) res.mnemonics st.mnemonics },
          todo) with
    | error e => rw [hr] at h; cases h
    | ok acc =>
      rw [hr] at h
      have hmne := recordJumps_mnemonics res.jumps _ acc hr
      refine disassembleGo_mono decode fuel acc.2 acc.1 st' h p ?_
      rw [hmne]
      exact mem_insertGroupAt_of_mem_group _ _ _ p hp

/-- C5 amended witness: at the concrete mid-instruction state, the skip
equation holds for the already-decoded address 0, and the decoded mnemonic
`[1,2)` of the popped inner address 1 ends up in the result state. -/
theorem C5_amended_decode_on_miss_witness :
    (disassembleGo decMid 1 [0] stMid = disassembleGo decMid 0 [] stMid)
    ∧ (mkMne 1 2 "inner", ([] : List Nat)) ∈ stMidStepped.mnemonics :=
  ⟨(C5_amended_decode_on_miss decMid 0 0 [] stMid).1 (by decide),
    (C5_amended_decode_on_miss decMid 0 1 [] stMid).2 ⟨[(mkMne 1 2 "inner", [])], []⟩
      (mkMne 1 2 "inner", []) stMidStepped (by decide) rfl (by decide) rfl⟩

/-! ## C7 — rewrite: NonContinuousBlock and atomicity -/

theorem pushAll_true (code stmts : List Stmt) :
    pushAll (fun _ => true) code stmts = .ok (code ++ stmts) := by
  induction stmts generalizing code with
  | nil => simp [pushAll]
  | cons s rest ih => simp [pushAll, ih]

theorem rebuildBlockGo_some_ok (bbIdx : Nat) :
    ∀ (mnes : List (Mnemonic × List Stmt)) (sv : Nat) (mns : List Mnemonic)
      (code : List Stmt), hasGapFrom sv (mnes.map Prod.fst) = false →
      ∃ out, rebuildBlockGo (fun _ => true) bbIdx mnes (some sv) mns code = .ok out := by
  intro mnes
  induction mnes with
  | nil => intro sv mns code _; exact ⟨(mns, code), rfl⟩
  | cons q rest ih =>
    intro sv mns code hgap
    obtain ⟨m, stmts⟩ := q
    simp only [List.map_cons, hasGapFrom, Bool.or_eq_false_iff, bne_eq_false_iff_eq] at hgap
    obtain ⟨h1, h2⟩ := hgap
    subst h1
    obtain ⟨out, hout⟩ := ih m.areaEnd
      (mns ++ [{ m with stmtStart := code.length, stmtEnd := (code ++ stmts).length }])
      (code ++ stmts) h2
    refine ⟨out, ?_⟩
    simp only [rebuildBlockGo]
    rw [if_neg (by simp)]
    simp only [pushAll_true]
    exact hout

theorem rebuildBlockGo_some_err (bbIdx : Nat) :
    ∀ (mnes : List (Mnemonic × List Stmt)) (sv : Nat) (mns : List Mnemonic)
      (code : List Stmt), hasGapFrom sv (mnes.map Prod.fst) = true →
      ∃ p n, rebuildBlockGo (fun _ => true) bbIdx mnes (some sv) mns code =
        .error (.nonContinuousBlock bbIdx p n) := by
  intro mnes
  induction mnes with
  | nil => intro sv mns code h; simp [hasGapFrom] at h
  | cons q rest ih =>
    intro sv mns code hgap
    obtain ⟨m, stmts⟩ := q
    by_cases hsv : sv = m.areaStart
    · subst hsv
      simp only [List.map_cons, hasGapFrom, Bool.or_eq_true, bne_iff_ne, ne_eq,
        not_true_eq_false, false_or] at hgap
      obtain ⟨p, n, hout⟩ := ih m.areaEnd
        (mns ++ [{ m with stmtStart := code.length, stmtEnd := (code ++ stmts).length }])
        (code ++ stmts) (by simpa using hgap)
      refine ⟨p, n, ?_⟩
      simp only [rebuildBlockGo]
      rw [if_neg (by simp)]
      simp only [pushAll_true]
      exact hout
    · refine ⟨sv, m.areaStart, ?_⟩
      simp only [rebuildBlockGo]
      rw [if_pos hsv]

theorem rebuildBlockGo_none_ok (bbIdx : Nat) (mnes : List (Mnemonic × List Stmt))
    (mns : List Mnemonic) (code : List Stmt)
    (hgap : blockGap (mnes.map Prod.fst) = false) :
    ∃ out, rebuildBlockGo (fun _ => true) bbIdx mnes none mns code = .ok out := by
  cases mnes with
  | nil => exact ⟨(mns, code), rfl⟩
  | cons q rest =>
    obtain ⟨m, stmts⟩ := q
    simp only [List.map_cons, blockGap] at hgap
    obtain ⟨out, hout⟩ := rebuildBlockGo_some_ok bbIdx rest m.areaEnd
      (mns ++ [{ m with stmtStart := code.length, stmtEnd := (code ++ stmts).length }])
      (code ++ stmts) hgap
    refine ⟨out, ?_⟩
    simp only [rebuildBlockGo, pushAll_true]
    exact hout

theorem rebuildBlockGo_none_err (bbIdx : Nat) (mnes : List (Mnemonic × List Stmt))
    (mns : List Mnemonic) (code : List Stmt)
    (hgap : blockGap (mnes.map Prod.fst) = true) :
    ∃ p n, rebuildBlockGo (fun _ => true) bbIdx mnes none mns code =
      .error (.nonContinuousBlock bbIdx p n) := by
  cases mnes with
  | nil => simp [blockGap] at hgap
  | cons q rest =>
    obtain ⟨m, stmts⟩ := q
    simp only [List.map_cons, blockGap] at hgap
    obtain ⟨p, n, hout⟩ := rebuildBlockGo_some_err bbIdx rest m.areaEnd
      (mns ++ [{ m with stmtStart := code.length, stmtEnd := (code ++ stmts).length }])
      (code ++ stmts) hgap
    refine ⟨p, n, ?_⟩
    simp only [rebuildBlockGo, pushAll_true]
    exact hout

theorem rebuildBlocksGo_ncb_iff :
    ∀ (blocks : List (List (Mnemonic × List Stmt))) (bbIdx : Nat) (mns : List Mnemonic)
      (code : List Stmt) (ranges : List (Nat × Nat)),
      (∃ i p n, rebuildBlocksGo (fun _ => true) blocks bbIdx mns code ranges =
          .error (.nonContinuousBlock i p n)) ↔
        ∃ mnes ∈ blocks, blockGap (mnes.map Prod.fst) = true := by
  intro blocks
  induction blocks with
  | nil => intro bbIdx mns code ranges; simp [rebuildBlocksGo]
  | cons mnes rest ih =>
    intro bbIdx mns code ranges
    cases hg : blockGap (mnes.map Prod.fst) with
    | true =>
      obtain ⟨p, n, herr⟩ := rebuildBlockGo_none_err bbIdx mnes mns code hg
      simp only [rebuildBlocksGo, herr]
      exact iff_of_true ⟨bbIdx, p, n, rfl⟩ ⟨mnes, by simp, hg⟩
    | false =>
      obtain ⟨out, hok⟩ := rebuildBlockGo_none_ok bbIdx mnes mns code hg
      simp only [rebuildBlocksGo, hok]
      rw [ih]
      constructor
      · rintro ⟨mnes', hm, hgap⟩
        exact ⟨mnes', List.mem_cons_of_mem _ hm, hgap⟩
      · rintro ⟨mnes', hm, hgap⟩
        rcases List.mem_cons.1 hm with rfl | hm
        · rw [hg] at hgap; cases hgap
        · exact ⟨mnes', hm, hgap⟩

theorem hasGapFrom_iff :
    ∀ (mnes : List Mnemonic) (sv : Nat),
      hasGapFrom sv mnes = true ↔
        ((0 < mnes.length ∧ sv ≠ (mnes.getD 0 default).areaStart)
          ∨ ∃ k, k + 1 < mnes.length ∧
              (mnes.getD k default).areaEnd ≠ (mnes.getD (k + 1) default).areaStart) := by
  intro mnes
  induction mnes with
  | nil => intro sv; simp [hasGapFrom]
  | cons m rest ih =>
    intro sv
    simp only [hasGapFrom, Bool.or_eq_true, bne_iff_ne, ne_eq]
    rw [ih m.areaEnd]
    constructor
    · rintro (hsv | (⟨hlen, hne⟩ | ⟨k, hk, hne⟩))
      · exact Or.inl ⟨by simp, by simpa using hsv⟩
      · refine Or.inr ⟨0, by simp; omega, ?_⟩
        simpa [List.getD_cons_zero, List.getD_cons_succ] using hne
      · refine Or.inr ⟨k + 1, by simp; omega, ?_⟩
        simpa [List.getD_cons_succ] using hne
    · rintro (⟨hlen, hne⟩ | ⟨k, hk, hne⟩)
      · exact Or.inl (by simpa [List.getD_cons_zero] using hne)
      · cases k with
        | zero =>
          refine Or.inr (Or.inl ⟨by simp at hk ⊢; omega, ?_⟩)
          simpa [List.getD_cons_zero, List.getD_cons_succ] using hne
        | succ k =>
          refine Or.inr (Or.inr ⟨k, by simp at hk ⊢; omega, ?_⟩)
          simpa [List.getD_cons_succ] using hne

theorem blockGap_iff (mnes : List Mnemonic) :
    blockGap mnes = true ↔
      ∃ k, k + 1 < mnes.length ∧
        (mnes.getD k default).areaEnd ≠ (mnes.getD (k + 1) default).areaStart := by
  cases mnes with
  | nil => simp [blockGap]
  | cons m rest =>
    simp only [blockGap]
    rw [hasGapFrom_iff]
    constructor
    · rintro (⟨hlen, hne⟩ | ⟨k, hk, hne⟩)
      · refine ⟨0, by simp; omega, ?_⟩
        simpa [List.getD_cons_zero, List.getD_cons_succ] using hne
      · refine ⟨k + 1, by simp; omega, ?_⟩
        simpa [List.getD_cons_succ] using hne
    · rintro ⟨k, hk, hne⟩
      cases k with
      | zero =>
        refine Or.inl ⟨by simp at hk ⊢; omega, ?_⟩
        simpa [List.getD_cons_zero, List.getD_cons_succ] using hne
      | succ k =>
        refine Or.inr ⟨k, by simp at hk ⊢; omega, ?_⟩
        simpa [List.getD_cons_succ] using hne

/-- C7: `rewrite` returns *NonContinuousBlock* exactly when, after the
transformer has run, some block holds adjacent mnemonics with
`prev.area.end ≠ next.area.start` (both-endpoints-equal zero-width mnemonics
pass the check); and on every error — transformer error, statement-push
failure or *NonContinuousBlock* — the function is returned exactly as it was
(assignment of the new vectors happens only on the all-success path). -/
theorem C7_rewrite_noncontinuous_atomic (f : Function Stmt)
    (transform : List (List (Mnemonic × List Stmt)) →
      Except String (List (List (Mnemonic × List Stmt)))) (pushOk : Stmt → Bool) :
    (∀ e, (f.rewrite transform pushOk).2 = .error e → (f.rewrite transform pushOk).1 = f)
    ∧ (∀ blocks', transform f.materializeBlocks = .ok blocks' →
        ((∃ i p n, (f.rewrite transform (fun _ => true)).2 =
            .error (.nonContinuousBlock i p n)) ↔
          ∃ mnes ∈ blocks', ∃ k, k + 1 < mnes.length ∧
            ((mnes.map Prod.fst).getD k default).areaEnd ≠
              ((mnes.map Prod.fst).getD (k + 1) default).areaStart)) := by
  constructor
  · intro e herr
    cases ht : transform f.materializeBlocks with
    | error e' => simp [Function.rewrite, ht]
    | ok blocks' =>
      cases hrb : rebuildBlocksGo pushOk blocks' 0 [] [] [] with
      | error e'' => simp [Function.rewrite, ht, hrb]
      | ok out =>
        obtain ⟨mns, code, ranges⟩ := out
        simp [Function.rewrite, ht, hrb] at herr
  · intro blocks' ht
    have hres : (f.rewrite transform (fun _ => true)).2 =
        match rebuildBlocksGo (fun _ => true) blocks' 0 [] [] [] with
        | .error e => .error e
        | .ok _ => .ok () := by
      cases hrb : rebuildBlocksGo (fun _ => true) blocks' 0 [] [] [] with
      | error e => simp [Function.rewrite, ht, hrb]
      | ok out =>
        obtain ⟨mns, code, ranges⟩ := out
        simp [Function.rewrite, ht, hrb]
    rw [hres]
    have hmain := rebuildBlocksGo_ncb_iff blocks' 0 [] [] []
    constructor
    · rintro ⟨i, p, n, hcase⟩
      have hiff : ∃ i p n, rebuildBlocksGo (fun _ => true) blocks' 0 [] [] [] =
          .error (.nonContinuousBlock i p n) := by
        cases hrb : rebuildBlocksGo (fun _ => true) blocks' 0 [] [] [] with
        | error e =>
          rw [hrb] at hcase
          cases hcase
          exact ⟨i, p, n, rfl⟩
        | ok out => rw [hrb] at hcase; cases hcase
      obtain ⟨mnes, hm, hgap⟩ := hmain.1 hiff
      obtain ⟨k, hk, hne⟩ := (blockGap_iff (mnes.map Prod.fst)).1 hgap
      exact ⟨mnes, hm, k, by simpa using hk, hne⟩
    · rintro ⟨mnes, hm, k, hk, hne⟩
      have hgap : blockGap (mnes.map Prod.fst) = true :=
        (blockGap_iff (mnes.map Prod.fst)).2 ⟨k, by simpa using hk, hne⟩
      obtain ⟨i, p, n, herr⟩ := hmain.2 ⟨mnes, hm, hgap⟩
      exact ⟨i, p, n, by rw [herr]⟩

/-- C7 witness: a failing transformer leaves the branch function unchanged,
and a transformer that produces a block with an internal address gap makes
`rewrite` fail with *NonContinuousBlock*. -/
theorem C7_rewrite_noncontinuous_atomic_witness :
    (fBranch.rewrite (fun _ => .error "x") okPush).1 = fBranch
    ∧ ∃ i p n, (fBranch.rewrite
        (fun _ => .ok [[(mkMne 0 1 "a", []), (mkMne 5 6 "b", [])]]) (fun _ => true)).2 =
      .error (.nonContinuousBlock i p n) :=
  ⟨(C7_rewrite_noncontinuous_atomic fBranch (fun _ => .error "x") okPush).1
      (.transformError "x") (by decide),
    ((C7_rewrite_noncontinuous_atomic fBranch
        (fun _ => .ok [[(mkMne 0 1 "a", []), (mkMne 5 6 "b", [])]]) (fun _ => true)).2
      [[(mkMne 0 1 "a", []), (mkMne 5 6 "b", [])]] rfl).mpr
      ⟨[(mkMne 0 1 "a", []), (mkMne 5 6 "b", [])], by decide, 0, by decide, by decide⟩⟩

/-! ## C8 — identity rewrite and the full statement stream -/

theorem codeSlice_full (l : List Stmt) : codeSlice l 0 l.length = l := by
  simp [codeSlice]

theorem rebuildBlockGo_code_ok (bbIdx : Nat) :
    ∀ (mnes : List (Mnemonic × List Stmt)) (prev : Option Nat) (mns : List Mnemonic)
      (code : List Stmt) out,
      rebuildBlockGo (fun _ => true) bbIdx mnes prev mns code = .ok out →
      out.2 = code ++ (mnes.map Prod.snd).flatten := by
  intro mnes
  induction mnes with
  | nil => intro prev mns code out h; cases h; simp
  | cons q rest ih =>
    intro prev mns code out h
    obtain ⟨m, stmts⟩ := q
    cases prev with
    | none =>
      simp only [rebuildBlockGo, pushAll_true] at h
      have hrec := ih (some m.areaEnd) _ _ out h
      rw [hrec]
      simp
    | some sv =>
      simp only [rebuildBlockGo] at h
      by_cases hsv : sv ≠ m.areaStart
      · rw [if_pos hsv] at h; cases h
      · rw [if_neg hsv] at h
        simp only [pushAll_true] at h
        have hrec := ih (some m.areaEnd) _ _ out h
        rw [hrec]
        simp

theorem rebuildBlocksGo_code_ok :
    ∀ (blocks : List (List (Mnemonic × List Stmt))) (bbIdx : Nat) (mns : List Mnemonic)
      (code : List Stmt) (ranges : List (Nat × Nat)) out,
      rebuildBlocksGo (fun _ => true) blocks bbIdx mns code ranges = .ok out →
      out.2.1 = code ++ (blocks.map (fun mnes => (mnes.map Prod.snd).flatten)).flatten := by
  intro blocks
  induction blocks with
  | nil => intro bbIdx mns code ranges out h; cases h; simp
  | cons mnes rest ih =>
    intro bbIdx mns code ranges out h
    simp only [rebuildBlocksGo] at h
    cases hb : rebuildBlockGo (fun _ => true) bbIdx mnes none mns code with
    | error e => rw [hb] at h; cases h
    | ok p =>
      rw [hb] at h
      have h1 := rebuildBlockGo_code_ok bbIdx mnes none mns code p hb
      have h2 := ih (bbIdx + 1) p.1 p.2 _ out h
      rw [h2, h1]
      simp

/-- C8 counterexample: on the branch function the IL container is laid out in
DFS postorder (`[20, 30, 10]`: the blocks at addresses 1, 2, 0), but the
identity rewrite relays it in block-vector order (`[10, 20, 30]`), so the
full `statements(..)` sequence changes even though the transformer changed
nothing. -/
theorem C8_counterexample_statement_order :
    (fBranch.rewrite (fun bs => .ok bs) okPush).2 = .ok ()
    ∧ fBranch.statementsFull = [20, 30, 10]
    ∧ (fBranch.rewrite (fun bs => .ok bs) okPush).1.statementsFull = [10, 20, 30]
    ∧ (fBranch.rewrite (fun bs => .ok bs) okPush).1.statementsFull ≠ fBranch.statementsFull := by
  decide

/-- C8 amended: after a successful identity rewrite, the full `statements(..)`
stream equals the concatenation, in block-vector order and mnemonic order, of
the original per-mnemonic statement sequences (the per-mnemonic contents are
preserved; only the inter-block layout changes from postorder to block
order). -/
theorem C8_amended_identity_blockorder (f : Function Stmt)
    (hok : (f.rewrite (fun bs => .ok bs) (fun _ => true)).2 = .ok ()) :
    (f.rewrite (fun bs => .ok bs) (fun _ => true)).1.statementsFull =
      blockOrderStatements f := by
  cases hrb : rebuildBlocksGo (fun _ => true) f.materializeBlocks 0 [] [] [] with
  | error e =>
    have hcontra : (f.rewrite (fun bs => .ok bs) (fun _ => true)).2 = .error e := by
      simp [Function.rewrite, hrb]
    rw [hcontra] at hok
    cases hok
  | ok out =>
    obtain ⟨mns, code, ranges⟩ := out
    have hcode := rebuildBlocksGo_code_ok f.materializeBlocks 0 [] [] [] (mns, code, ranges) hrb
    have hrw : (f.rewrite (fun bs => .ok bs) (fun _ => true)).1.statementsFull = code := by
      simp [Function.rewrite, hrb, Function.statementsFull, codeSlice_full]
    rw [hrw]
    simp only at hcode
    rw [hcode]
    simp [blockOrderStatements]

/-- C8 amended witness: the identity-rewritten branch function's full
statement stream equals the block-order concatenation of the original. -/
theorem C8_amended_identity_blockorder_witness :
    (fBranch.rewrite (fun bs => .ok bs) (fun _ => true)).1.statementsFull =
      blockOrderStatements fBranch :=
  C8_amended_identity_blockorder fBranch (by decide)

end Panopticon
